import Mathlib

/-!
# Verification of the transitive dependency aggregation core
  (`src/poetry/puzzle/solver.py`)

This file gives a shallow embedding of the dependency-aggregation pipeline of
the solver: the marker algebra (an external collaborator, modelled from its
specified contract), the DFS over package nodes, depth/group aggregation, the
marker fixed-point `calculate_markers`, feature folding in
`Solver._aggregate_solved_packages`, the override merger
`merge_packages_from_override`, and the marker promotion pass of
`Solver._solve_in_compatibility_mode`.

Python dicts are embedded as insertion-ordered association lists, Python sets
of group names as lists compared via `List.toFinset` where the source compares
sets, and machine integers as `Int`/`Nat` (no overflow is possible here).
Mutation is embedded as explicit state passing.  The unbounded `while` loop of
`calculate_markers` and the DFS recursion take explicit fuel and return
`Option`/`none` on exhaustion.
-/

namespace Solver

/-- Atomic environment markers.  The marker algebra is an external collaborator
(`poetry.core.version.markers`); atoms are modelled as the comparison kinds the
spec mentions: `python_version` bounds (minor version as a `Nat`, so `pyGe n`
stands for `python_version >= "3.n"`), `sys_platform == s`, `os_name == s` and
`extra == s`. -/
inductive MAtom where
  | pyGe (n : Nat)
  | pyLt (n : Nat)
  | platform (s : String)
  | osName (s : String)
  | extra (s : String)
deriving DecidableEq, Repr

/-- Is an atom an `extra == "..."` comparison? -/
def MAtom.isExtra : MAtom → Bool
  | .extra _ => true
  | _ => false

/-- Does an atom constrain the `python_version` variable? -/
def MAtom.isPy : MAtom → Bool
  | .pyGe _ => true
  | .pyLt _ => true
  | _ => false

/-- Symbolic environment markers, mirroring `BaseMarker`: `AnyMarker`,
`EmptyMarker`, single markers, `MultiMarker` (conjunction, a flattened list)
and `MarkerUnion` (disjunction, a flattened list).  Equality is structural,
as in the source library. -/
inductive Marker where
  | any
  | empty
  | atom (a : MAtom)
  | conj (ms : List Marker)
  | disj (ms : List Marker)
deriving Repr

namespace Marker

/-- Structural (Boolean-valued) equality on markers. -/
def beq : Marker → Marker → Bool
  | .any, .any => true
  | .empty, .empty => true
  | .atom a, .atom b => a = b
  | .conj ms, .conj ns => beqList ms ns
  | .disj ms, .disj ns => beqList ms ns
  | _, _ => false
where
  /-- Pointwise equality of marker lists. -/
  beqList : List Marker → List Marker → Bool
  | [], [] => true
  | m :: ms, n :: ns => beq m n && beqList ms ns
  | _, _ => false

instance : BEq Marker := ⟨beq⟩

theorem beq_refl : ∀ (m : Marker), beq m m = true
  | .any => rfl
  | .empty => rfl
  | .atom a => by simp [beq]
  | .conj ms => by simp only [beq]; exact beqList_refl ms
  | .disj ms => by simp only [beq]; exact beqList_refl ms
where
  beqList_refl : ∀ (ms : List Marker), beq.beqList ms ms = true
  | [] => rfl
  | m :: ms => by
      simp only [beq.beqList, Bool.and_eq_true]
      exact ⟨beq_refl m, beqList_refl ms⟩

theorem eq_of_beq : ∀ {m n : Marker}, beq m n = true → m = n
  | .any, .any, _ => rfl
  | .empty, .empty, _ => rfl
  | .atom a, .atom b, h => by
      simp only [beq, decide_eq_true_eq] at h; exact h ▸ rfl
  | .conj ms, .conj ns, h => by
      simp only [beq] at h
      exact congrArg Marker.conj (eqList h)
  | .disj ms, .disj ns, h => by
      simp only [beq] at h
      exact congrArg Marker.disj (eqList h)
where
  eqList : ∀ {ms ns : List Marker}, beq.beqList ms ns = true → ms = ns
  | [], [], _ => rfl
  | m :: ms, n :: ns, h => by
      simp only [beq.beqList, Bool.and_eq_true] at h
      exact congrArg₂ List.cons (eq_of_beq h.1) (eqList h.2)

instance : LawfulBEq Marker where
  eq_of_beq := eq_of_beq
  rfl := beq_refl _

instance : DecidableEq Marker := fun m n =>
  decidable_of_iff (beq m n = true) ⟨eq_of_beq, fun h => h ▸ beq_refl m⟩

/-- The conjuncts of a marker, as `MultiMarker.of` flattens them. -/
def conjFactors : Marker → List Marker
  | conj ms => ms
  | m => [m]

/-- The disjuncts of a marker, as `MarkerUnion.of` flattens them. -/
def disjFactors : Marker → List Marker
  | disj ms => ms
  | m => [m]

/-- Rebuild a conjunction from a flattened, deduplicated factor list
(`MultiMarker.of`): an empty list is `AnyMarker`, a singleton collapses. -/
def mkConj : List Marker → Marker
  | [] => any
  | [m] => m
  | ms => conj ms

/-- Rebuild a disjunction (`MarkerUnion.of`). -/
def mkDisj : List Marker → Marker
  | [] => empty
  | [m] => m
  | ms => disj ms

/-- `BaseMarker.intersect`: identity on `AnyMarker`, absorbing on
`EmptyMarker`, otherwise the flattened, duplicate-free conjunction. -/
def intersectM (a b : Marker) : Marker :=
  match a, b with
  | any, m => m
  | m, any => m
  | empty, _ => empty
  | _, empty => empty
  | a, b => mkConj ((conjFactors a ++ conjFactors b).dedup)

/-- `BaseMarker.union`: identity on `EmptyMarker`, absorbing on `AnyMarker`,
otherwise the flattened, duplicate-free disjunction. -/
def unionM (a b : Marker) : Marker :=
  match a, b with
  | empty, m => m
  | m, empty => m
  | any, _ => any
  | _, any => any
  | a, b => mkDisj ((disjFactors a ++ disjFactors b).dedup)

/-- `BaseMarker.without_extras()`: drop every `extra` comparison; a
conjunction/disjunction is rebuilt from the surviving members. -/
def withoutExtras : Marker → Marker
  | atom a => if a.isExtra then any else atom a
  | conj ms => mkConj (((withoutExtrasList ms).filter fun m => m ≠ any).dedup)
  | disj ms => mkDisj (((withoutExtrasList ms).filter fun m => m ≠ empty).dedup)
  | m => m
where
  /-- `without_extras` mapped over the members. -/
  withoutExtrasList : List Marker → List Marker
  | [] => []
  | m :: ms => withoutExtras m :: withoutExtrasList ms

/-- `BaseMarker.only("python_version")`: keep only `python_version`
comparisons. -/
def onlyPy : Marker → Marker
  | atom a => if a.isPy then atom a else any
  | conj ms => mkConj (((onlyPyList ms).filter fun m => m ≠ any).dedup)
  | disj ms => mkDisj (((onlyPyList ms).filter fun m => m ≠ empty).dedup)
  | m => m
where
  /-- `only` mapped over the members. -/
  onlyPyList : List Marker → List Marker
  | [] => []
  | m :: ms => onlyPy m :: onlyPyList ms

end Marker

/-- A version constraint, modelled extensionally as the finite set of versions
it accepts (versions are opaque `Nat`s here).  Two constraints are equal
exactly when these lists are equal, mirroring constraint equality in the
source library. -/
abbrev VConstraint := List Nat

/-- `Dependency` (external record, `poetry.core.packages.dependency`): target
name, extras of the target (so the complete name is `name[extras]`), version
constraint, environment marker, dependency groups, optional flag, and the
`in_extras` root-extra annotations. -/
structure Dep where
  name : String
  extras : List String
  constraint : VConstraint
  marker : Marker
  groups : List String
  optional : Bool
  inExtras : List String
deriving DecidableEq, Repr

/-- `Dependency.__eq__` of the source library compares the complete name and
the version constraint but *not* the environment marker (the solver's own
`_aggregate_solved_packages` re-checks `_dep.marker != dep.marker` after a
successful `requires.index(dep)` lookup, which is meaningful only because
`==` ignores the marker). -/
def Dep.eqv (d e : Dep) : Bool :=
  d.name == e.name && d.extras == e.extras && d.constraint == e.constraint

/-- `Package` (external record): identified by `(name, version, features)`;
`requires` is its mutable dependency list and `isRoot` tells whether it is the
root `ProjectPackage`. -/
structure Pkg where
  name : String
  version : Nat
  features : List String
  requires : List Dep
  isRoot : Bool
deriving DecidableEq, Repr

/-- The identity under which a `Package` is used as a dict key
(`(complete_name, version)`; `requires` never takes part in hashing or
equality of packages). -/
abbrev PkgId := String × List String × Nat

/-- The dict key of a package. -/
def Pkg.pid (p : Pkg) : PkgId := (p.name, p.features, p.version)

/-- `pkg.complete_name == dependency.complete_name`: same base name and the
package's features equal the dependency's extras. -/
def Pkg.completeNameMatches (p : Pkg) (d : Dep) : Bool :=
  p.name == d.name && p.features == d.extras

/-- `pkg.satisfies(dependency)`: the package's version is accepted by the
dependency's constraint. -/
def Pkg.satisfies (p : Pkg) (d : Dep) : Bool :=
  p.version ∈ d.constraint

/-- `TransitivePackageInfo`: depth, transitive groups and per-group markers of
a package.  The group set is kept as an insertion-ordered list (the source
keeps a `set`; where the source compares sets we compare `List.toFinset`),
and `markers` is an insertion-ordered dict. -/
structure TInfo where
  depth : Int
  groups : List String
  markers : List (String × Marker)
deriving DecidableEq, Repr

/-! ## Insertion-ordered dictionaries

Python `dict`s are embedded as association lists: lookup scans from the left,
an update keeps the key's position, an insert of a fresh key appends. -/

/-- Dict lookup. -/
def alGet {α β : Type} (eq : α → α → Bool) (l : List (α × β)) (k : α) :
    Option β :=
  match l with
  | [] => none
  | (k', v) :: rest => if eq k k' then some v else alGet eq rest k

/-- Dict update-or-append (`d[k] = v`). -/
def alPut {α β : Type} (eq : α → α → Bool) (l : List (α × β)) (k : α)
    (v : β) : List (α × β) :=
  match l with
  | [] => [(k, v)]
  | (k', v') :: rest =>
      if eq k k' then (k', v) :: rest else (k', v') :: alPut eq rest k v

/-- Keys of a dict, in insertion order. -/
def alKeys {α β : Type} (l : List (α × β)) : List α := l.map Prod.fst

/-- Package-keyed dicts compare keys by package identity. -/
def pkgEq (p q : Pkg) : Bool := p.pid = q.pid

/-- The `packages` argument of `calculate_markers`:
`dict[Package, TransitivePackageInfo]`. -/
abbrev PkgMap := List (Pkg × TInfo)

/-- The back-edge marker table `markers[child][parent] = edge marker`
(`dict[Package, dict[Package, BaseMarker]]`, a `defaultdict`, so a missing
child key reads as the empty dict). -/
abbrev MarkerTbl := List (Pkg × List (Pkg × Marker))

/-- The info read for an absent key.  `packages[parent]` would raise a
`KeyError` in the source; the embedding yields an inert info instead
(empty groups, so it contributes like the root), and the theorems below
restrict themselves to inputs where every parent is present. -/
def dummyInfo : TInfo := ⟨0, [], []⟩

/-- `{group: EmptyMarker() for group in transitive_info.groups}`. -/
def tmInit (groups : List String) : List (String × Marker) :=
  groups.map fun g => (g, Marker.empty)

/-- `set(parent_info.markers) == parent_info.groups` — the source compares the
key set of the markers dict with the group set. -/
def TInfo.complete (i : TInfo) : Prop :=
  i.groups.toFinset = (alKeys i.markers).toFinset

instance (i : TInfo) : Decidable i.complete :=
  inferInstanceAs (Decidable (_ = _))

/-- The body of `calculate_markers` for one package: recompute its transitive
marker dict from its back-edge parents, threading the
`has_incomplete_markers` flag.  The state is `(packages, flag)`. -/
def cmProcessOne (tbl : MarkerTbl) (st : PkgMap × Bool) (package : Pkg) :
    PkgMap × Bool :=
  let pkgs := st.1
  let cinfo := (alGet pkgEq pkgs package).getD dummyInfo
  let parents := (alGet pkgEq tbl package).getD []
  let step := fun (acc : List (String × Marker) × Bool) (pm : Pkg × Marker) =>
    let pinfo := (alGet pkgEq pkgs pm.1).getD dummyInfo
    if pinfo.groups.isEmpty then
      -- `else:` branch — the parent is the root (no groups)
      (cinfo.groups.foldl (fun tm g =>
        alPut (· == ·) tm g
          (((alGet (· == ·) tm g).getD .empty).unionM pm.2)) acc.1, acc.2)
    else if ¬ pinfo.complete then
      -- there is a cycle -> we need one more iteration
      (acc.1, true)
    else
      (pinfo.groups.foldl (fun tm g =>
        alPut (· == ·) tm g
          (((alGet (· == ·) tm g).getD .empty).unionM
            (((alGet (· == ·) pinfo.markers g).getD .empty).intersectM pm.2)))
        acc.1, acc.2)
  let r := parents.foldl step (tmInit cinfo.groups, st.2)
  (alPut pkgEq pkgs package { cinfo with markers := r.1 }, r.2)

/-- One full pass of the `while` loop: every package of depth `0 …
max_depth`, grouped by depth and in insertion order inside a depth.  Returns
the updated map and the `has_incomplete_markers` flag. -/
def cmPass (tbl : MarkerTbl) (order : List Pkg) (pkgs : PkgMap) :
    PkgMap × Bool :=
  order.foldl (cmProcessOne tbl) (pkgs, false)

/-- `max_depth`, the running maximum (starting at `-1`) of the depths. -/
def cmMaxDepth (pkgs : PkgMap) : Int :=
  pkgs.foldl (fun a e => max a e.2.depth) (-1)

/-- The fixed processing order of the passes: `packages_by_depth[d]` for
`d = 0 … max_depth`, each bucket in map insertion order. -/
def cmOrder (pkgs : PkgMap) : List Pkg :=
  (List.range (cmMaxDepth pkgs + 1).toNat).flatMap fun d =>
    (pkgs.filter fun e => e.2.depth == (d : Int)).map Prod.fst

/-- The `while has_incomplete_markers` loop, with fuel.  `none` means the
fuel ran out with the flag still set (the source would keep looping). -/
def cmLoop (tbl : MarkerTbl) (order : List Pkg) :
    Nat → PkgMap → Option PkgMap
  | 0, _ => none
  | fuel + 1, pkgs =>
      match cmPass tbl order pkgs with
      | (pkgs', false) => some pkgs'
      | (pkgs', true) => cmLoop tbl order fuel pkgs'

/-- `calculate_markers(packages, markers)`: the fixed-point computation of the
per-group transitive markers. -/
def calculateMarkers (fuel : Nat) (pkgs : PkgMap) (tbl : MarkerTbl) :
    Option PkgMap :=
  cmLoop tbl (cmOrder pkgs) fuel pkgs

/-- The info stored for a package by an absent key, or the visible entry. -/
def lookInfo (pkgs : PkgMap) (p : Pkg) : TInfo :=
  (alGet pkgEq pkgs p).getD dummyInfo

/-- The step of the parent fold of `cmProcessOne`, with the enclosing
package's map and group list made explicit (definitionally equal to the
inline closure of `cmProcessOne`). -/
def cmStep (pkgs : PkgMap) (cgroups : List String)
    (acc : List (String × Marker) × Bool) (pm : Pkg × Marker) :
    List (String × Marker) × Bool :=
  if (lookInfo pkgs pm.1).groups.isEmpty then
    (cgroups.foldl (fun tm g =>
      alPut (· == ·) tm g
        (((alGet (· == ·) tm g).getD .empty).unionM pm.2)) acc.1, acc.2)
  else if ¬ (lookInfo pkgs pm.1).complete then
    (acc.1, true)
  else
    ((lookInfo pkgs pm.1).groups.foldl (fun tm g =>
      alPut (· == ·) tm g
        (((alGet (· == ·) tm g).getD .empty).unionM
          (((alGet (· == ·) (lookInfo pkgs pm.1).markers g).getD .empty).intersectM
            pm.2))) acc.1, acc.2)

/-- The per-package fold of `calculate_markers` in isolation: the recomputed
transitive marker dict of `package` and the updated
`has_incomplete_markers` flag. -/
def cmTmFold (tbl : MarkerTbl) (pkgs : PkgMap) (b : Bool) (package : Pkg) :
    List (String × Marker) × Bool :=
  ((alGet pkgEq tbl package).getD []).foldl
    (cmStep pkgs (lookInfo pkgs package).groups)
    (tmInit (lookInfo pkgs package).groups, b)

/-- An info that never triggers the cycle branch: no groups, or complete. -/
def GoodInfo (info : TInfo) : Prop :=
  info.groups.isEmpty = true ∨ info.complete

instance (info : TInfo) : Decidable (GoodInfo info) :=
  inferInstanceAs (Decidable (_ ∨ _))

/-- Every visible entry of the map is good. -/
def AllGoodVis (pkgs : PkgMap) : Prop :=
  ∀ p info, alGet pkgEq pkgs p = some info → GoodInfo info

/-- Hypothesis H1: entries at negative depth (never processed by the loop)
are good from the start — true of aggregation output, where only the root
(empty groups) has depth `-1`. -/
def CmNegGood (pkgs : PkgMap) : Prop :=
  ∀ e ∈ pkgs, e.2.depth < 0 → GoodInfo e.2

instance (pkgs : PkgMap) : Decidable (CmNegGood pkgs) :=
  inferInstanceAs (Decidable (∀ e ∈ pkgs, e.2.depth < 0 → GoodInfo e.2))

/-- Hypothesis H2: a back-edge parent's groups are groups of the child —
true of aggregation output, where each parent context is inherited by the
child node. -/
def CmParentGroupsSub (pkgs : PkgMap) (tbl : MarkerTbl) : Prop :=
  ∀ ce ∈ tbl, ∀ pm ∈ ce.2,
    (lookInfo pkgs pm.1).groups.isEmpty = false →
    ∀ g ∈ (lookInfo pkgs pm.1).groups, g ∈ (lookInfo pkgs ce.1).groups

instance (pkgs : PkgMap) (tbl : MarkerTbl) :
    Decidable (CmParentGroupsSub pkgs tbl) :=
  inferInstanceAs (Decidable (∀ ce ∈ tbl, ∀ pm ∈ ce.2,
    (lookInfo pkgs pm.1).groups.isEmpty = false →
    ∀ g ∈ (lookInfo pkgs pm.1).groups, g ∈ (lookInfo pkgs ce.1).groups))

/-- Two maps assign the same group lists everywhere. -/
def GroupsEq (a b : PkgMap) : Prop :=
  ∀ p : Pkg, (lookInfo b p).groups = (lookInfo a p).groups

/-- Divergence of `calculate_markers`: no amount of fuel completes the
`while` loop. -/
def cmDiverges (pkgs : PkgMap) (tbl : MarkerTbl) : Prop :=
  ∀ n, calculateMarkers n pkgs tbl = none

/-! ## The DFS graph (`PackageNode`, `dfs_visit`, `depth_first_search`) -/

/-- `PackageNode`: a DFS node wrapping a package, the flat package list, the
dependency through which the DFS reached it (`None` only for the source
node), the edge marker, the mutable depth, and the group/optional context. -/
structure PNode where
  package : Pkg
  packages : List Pkg
  dep : Option Dep
  marker : Marker
  depth : Int
  groups : List String
  optional : Bool
deriving DecidableEq, Repr

/-- `repr(package)`, as far as equality is concerned: the class name
(`ProjectPackage` versus `Package`), name, version and features. -/
def Pkg.rid (p : Pkg) : Bool × PkgId := (p.isRoot, p.pid)

/-- `DFSNodeID = (package_repr, groups, optional)` — the `repr` distinguishes
packages up to identity and class, and `groups` is a frozenset. -/
abbrev NodeId := (Bool × PkgId) × Finset String × Bool

/-- The DFS key of a node. -/
def PNode.nid (n : PNode) : NodeId :=
  (n.package.rid, n.groups.toFinset, n.optional)

/-- `PackageNode.__init__`: no predecessor gives the empty group-set and
`optional = True`; a predecessor together with a dependency takes both from
the dependency; a predecessor without a dependency is a programming error. -/
def mkPNode (package : Pkg) (packages : List Pkg) (previous : Option PNode)
    (dep : Option Dep) (marker : Option Marker) : Except String PNode :=
  match previous, dep with
  | none, _ =>
      .ok { package, packages, dep, marker := marker.getD .any, depth := -1,
            groups := [], optional := true }
  | some _, some d =>
      .ok { package, packages, dep, marker := marker.getD .any, depth := -1,
            groups := d.groups, optional := d.optional }
  | some _, none => .error "Both previous and dep must be passed"

/-- The child node built inside `reachable` (the `elif dep:` branch of the
constructor, which never raises because a dependency is always passed). -/
def mkChildNode (package : Pkg) (packages : List Pkg) (dep : Dep)
    (marker : Marker) : PNode :=
  { package, packages, dep := some dep, marker, depth := -1,
    groups := dep.groups, optional := dep.optional }

/-- `parse_marker(" or ".join(f'extra == "{e}"' for e in in_extras))`. -/
def mkExtraDisj : List String → Marker
  | [e] => .atom (.extra e)
  | es => .disj (es.map fun e => .atom (.extra e))

/-- `PackageNode.reachable`: for every dependency of the wrapped package, every
package of the flat list whose complete name matches and which satisfies the
dependency becomes a child; the edge marker is the dependency's marker,
intersected with the `in_extras` disjunction only when the parent is the
root; the producing dependency handed to the child is `self.dep or
dependency`. -/
def PNode.reachable (self : PNode) : List PNode :=
  self.package.requires.flatMap fun dependency =>
    (self.packages.filter fun pkg =>
        pkg.completeNameMatches dependency && pkg.satisfies dependency).map
      fun pkg =>
        let marker :=
          if self.package.isRoot && !dependency.inExtras.isEmpty then
            dependency.marker.intersectM (mkExtraDisj dependency.inExtras)
          else dependency.marker
        mkChildNode pkg self.packages (self.dep.getD dependency) marker

/-- The mutable state of `depth_first_search`: the back-edge lists, the
back-edge marker table, the visited set and the reverse-topologically sorted
node list. -/
structure DfsState where
  backEdges : List (NodeId × List PNode)
  tbl : MarkerTbl
  visited : List NodeId
  sorted : List PNode

/-- Record one DFS edge `node → out`: append `node` to
`back_edges[out.id]` and store the (extras-stripped unless the parent is the
root) edge marker in `markers[out.package][node.package]`. -/
def dfsRecordEdge (st : DfsState) (node out : PNode) : DfsState :=
  { st with
    backEdges := alPut (· == ·) st.backEdges out.nid
      (((alGet (· == ·) st.backEdges out.nid).getD []) ++ [node]),
    tbl := alPut pkgEq st.tbl out.package
      (alPut pkgEq ((alGet pkgEq st.tbl out.package).getD []) node.package
        (if node.package.isRoot then out.marker
         else out.marker.withoutExtras)) }

/-- A pending step of the (explicitly-stacked) recursive `dfs_visit`:
`enter parent out` records the edge `parent → out` and then visits `out`
exactly as the recursive call does; `leave node` prepends `node` to the
sorted list, as the end of its `dfs_visit` activation does. -/
inductive DTask where
  | enter (parent out : PNode)
  | leave (node : PNode)
deriving DecidableEq

/-- The body of `dfs_visit`, run over an explicit task stack so that the
recursion is structural in the fuel (the fuel bounds the number of steps; it
is irrelevant as long as it is large enough). -/
def dfsRun : Nat → List DTask → DfsState → Option DfsState
  | _, [], st => some st
  | 0, _ :: _, _ => none
  | f + 1, .enter parent out :: rest, st =>
      let st1 := dfsRecordEdge st parent out
      if out.nid ∈ st1.visited then dfsRun f rest st1
      else
        dfsRun f ((out.reachable.map fun o => .enter out o) ++
            .leave out :: rest)
          { st1 with visited := out.nid :: st1.visited }
  | f + 1, .leave node :: rest, st =>
      dfsRun f rest { st with sorted := node :: st.sorted }

/-- `dfs_visit(node, …)` from the top: skip if visited, otherwise mark
visited, process the children left to right (recording each edge first), and
prepend the node on exit. -/
def dfsVisit (fuel : Nat) (node : PNode) (st : DfsState) :
    Option DfsState :=
  if node.nid ∈ st.visited then some st
  else
    dfsRun fuel ((node.reachable.map fun o => .enter node o) ++
        [.leave node])
      { st with visited := node.nid :: st.visited }

/-- `PackageNode.visit`: the new depth of `node` given its back-edge parents
and the current depth assignment `dm` (a node's depth is `-1` until its own
`visit`; self-base-name parents count one less). -/
def visitDepth (parents : List PNode) (dm : List (NodeId × Int))
    (node : PNode) : Int :=
  1 + parents.foldl (fun acc p =>
        let pd := (alGet (· == ·) dm p.nid).getD (-1)
        max acc (if p.package.name ≠ node.package.name then pd else pd - 1))
      (-2)

/-- The `node.visit(back_edges[node.id])` loop of `depth_first_search`, run
over the sorted nodes in order; returns the final depth of every node. -/
def visitPass (backEdges : List (NodeId × List PNode)) (topo : List PNode) :
    List (NodeId × Int) :=
  topo.foldl (fun dm node =>
      alPut (· == ·) dm node.nid
        (visitDepth ((alGet (· == ·) backEdges node.nid).getD []) dm node))
    []

/-- Bucket the sorted nodes by name (one bucket per package identity, taken
at the position of its first representative), with final depths written back
into the nodes. -/
def combineNodes (topo : List PNode) (dm : List (NodeId × Int)) :
    List (List PNode) :=
  let upd := topo.map fun n =>
    { n with depth := (alGet (· == ·) dm n.nid).getD (-1) }
  ((upd.map fun n => n.package.rid).dedup).map fun nm =>
    upd.filter fun n => n.package.rid = nm

/-- `depth_first_search(source)`: run the DFS, compute depths, and return the
combined topologically sorted buckets together with the back-edge marker
table. -/
def depthFirstSearch (fuel : Nat) (source : PNode) :
    Option (List (List PNode) × MarkerTbl) :=
  match dfsVisit fuel source ⟨[], [], [], []⟩ with
  | none => none
  | some st =>
      let dm := visitPass st.backEdges st.sorted
      some (combineNodes st.sorted dm, st.tbl)

instance : Inhabited PNode :=
  ⟨{ package := ⟨"", 0, [], [], false⟩, packages := [], dep := none,
     marker := .any, depth := -1, groups := [], optional := true }⟩

/-- `aggregate_package_nodes(nodes)`: one `(package, TransitivePackageInfo)`
pair per bucket — the wrapped package of the first node, the maximal depth,
the ordered union of the group sets, and an empty marker dict (filled in by
`calculate_markers`). -/
def aggregatePackageNodes (nodes : List PNode) : Pkg × TInfo :=
  let package := (nodes.head?.getD default).package
  let depth := nodes.foldl (fun a n => max a n.depth)
    (nodes.head?.getD default).depth
  let groups := nodes.foldl (fun acc n =>
    acc ++ n.groups.filter (fun g => ¬ g ∈ acc)) []
  (package, ⟨depth, groups, []⟩)

instance : Inhabited Pkg := ⟨⟨"", 0, [], [], false⟩⟩

/-! ## Feature folding (`Solver._aggregate_solved_packages`) -/

/-- Fold one dependency of a feature variant into a base package `b`:
skip it when its target name is the base's own name; otherwise look it up
with `requires.index(dep)` (dependency equality, which ignores the marker) —
if absent, append it (`add_dependency`), and if present with a different
marker, overwrite the existing entry's marker with the feature's marker. -/
def foldDepInto (b : Pkg) (dep : Dep) : Pkg :=
  if b.name == dep.name then b
  else
    match b.requires.findIdx? (fun d => d.eqv dep) with
    | none => { b with requires := b.requires ++ [dep] }
    | some i =>
        match b.requires[i]? with
        | none => b
        | some d =>
            if d.marker ≠ dep.marker then
              { b with requires := b.requires.set i { d with
                  marker := dep.marker } }
            else b

/-- Fold every dependency of the feature variant into the base, in order. -/
def foldFeatureInto (b : Pkg) (feature : Pkg) : Pkg :=
  feature.requires.foldl foldDepInto b

/-- The inner loop of feature folding: fold `package` (a feature variant)
into the base package at position `j`, when position `j` holds a featureless
package of the same name and version. -/
def foldStepBase (package : Pkg) (st2 : List Pkg) (j : Nat) : List Pkg :=
  let q := st2[j]?.getD default
  if q.features.isEmpty && q.name == package.name &&
      q.version == package.version then
    st2.set j (foldFeatureInto q package)
  else st2

/-- Fold one feature variant into every matching base package. -/
def foldIntoBases (package : Pkg) (st : List Pkg) : List Pkg :=
  (List.range st.length).foldl (foldStepBase package) st

/-- The outer loop of feature folding: position `i` is folded into the bases
when it holds a feature variant. -/
def foldStepOuter (st : List Pkg) (i : Nat) : List Pkg :=
  let package := st[i]?.getD default
  if !package.features.isEmpty then foldIntoBases package st else st

/-- The feature-folding phase: for every feature variant in the flat list (in
order), fold its dependencies into every base package of the same name and
version; mutation of the base packages is modelled by updating the list in
place at their positions. -/
def foldFeatures (packages : List Pkg) : List Pkg :=
  (List.range packages.length).foldl foldStepOuter packages

/-- The loop building the output dict `solved_packages`: only base packages
(empty features), in list order, each mapped to its `results` entry; `none`
if a base package has no aggregation result (the source would raise a
`KeyError`). -/
def buildSolvedGo (results : PkgMap) :
    List Pkg → List (Pkg × TInfo) → Option (List (Pkg × TInfo))
  | [], acc => some acc
  | package :: rest, acc =>
      if package.features.isEmpty then
        match alGet pkgEq results package with
        | some info => buildSolvedGo results rest (alPut pkgEq acc package info)
        | none => none
      else buildSolvedGo results rest acc

/-- The output dict `solved_packages`, built from the empty dict. -/
def buildSolved (finalPkgs : List Pkg) (results : PkgMap) :
    Option (List (Pkg × TInfo)) :=
  buildSolvedGo results finalPkgs []

/-- `Solver._aggregate_solved_packages(packages)`: DFS from the root, node
aggregation, marker fixed-point, feature folding, and the final base-only
mapping.  (The source interleaves folding with building the output dict, but
both read and write the same shared package objects, so folding first is
equivalent.) -/
def aggregateSolvedPackages (fuel : Nat) (root : Pkg) (packages : List Pkg) :
    Option (List (Pkg × TInfo)) :=
  match (mkPNode root packages none none none).toOption with
  | none => none
  | some source =>
      match depthFirstSearch fuel source with
      | none => none
      | some (combined, tbl) =>
          match calculateMarkers fuel (combined.map aggregatePackageNodes)
              tbl with
          | none => none
          | some final => buildSolved (foldFeatures packages) final

/-! ## Override merging (`merge_packages_from_override`) -/

/-- One override: `dict[Package, dict[str, Dependency]]`. -/
abbrev Override := List (Pkg × List (String × Dep))

/-- `override_marker`: the intersection, over all replacement dependencies of
the override, of `dep.marker.without_extras()`, starting from `AnyMarker`. -/
def overrideMarker (override : Override) : Marker :=
  override.foldl (fun acc e =>
      e.2.foldl (fun acc2 sd => acc2.intersectM sd.2.marker.withoutExtras) acc)
    .any

/-- `merge_packages_from_override(packages, new_packages, override)`: merge
one override rerun's results into the accumulator. -/
def mergePackagesFromOverride (packages : PkgMap) (newPackages : PkgMap)
    (override : Override) : PkgMap :=
  let om := overrideMarker override
  newPackages.foldl (fun acc e =>
      let np := e.1
      let ninfo := e.2
      match alGet pkgEq acc np with
      | some pinfo =>
          -- update existing package
          let pinfo := { pinfo with
            depth := max pinfo.depth ninfo.depth,
            groups := pinfo.groups ++
              ninfo.groups.filter (fun g => ¬ g ∈ pinfo.groups) }
          let pinfo := ninfo.markers.foldl (fun pinf gm =>
              let v := ((alGet (· == ·) pinf.markers gm.1).getD .empty).unionM
                (om.intersectM gm.2)
              { pinf with markers := alPut (· == ·) pinf.markers gm.1 v })
            pinfo
          let acc := alPut pkgEq acc np pinfo
          -- add the override rerun's new requirements to the stored package
          acc.map fun kv =>
            if pkgEq kv.1 np then
              let rs := np.requires.foldl
                (fun rs d =>
                  if rs.any (fun d2 => d2.eqv d) then rs else rs ++ [d])
                kv.1.requires
              ({ kv.1 with requires := rs }, kv.2)
            else kv
      | none =>
          let ninfo := { ninfo with
            markers := ninfo.markers.map fun gm => (gm.1, om.intersectM gm.2) }
          acc ++ [(np, ninfo)])
    packages

/-! ## Marker promotion (`Solver._solve_in_compatibility_mode`)

After the override reruns are merged, markers equivalent to the root's python
constraint are replaced by `AnyMarker`.  The test `marker ==
marker.only("python_version") and
get_python_constraint_from_marker(marker).allows_all(package.python_constraint)`
is abstracted into a `covers` predicate (its second conjunct lives in the
external constraint library); a concrete model of that library follows
below. -/

/-- Promote the markers of one info dict, threading the memoized
`equivalent_markers` set (modelled as a duplicate-free list). -/
def promoteOne (covers : Marker → Bool) (seen : List Marker)
    (markers : List (String × Marker)) :
    List (String × Marker) × List Marker :=
  markers.foldl (fun acc gm =>
      if gm.2 ∈ acc.2 || covers gm.2 then
        (alPut (· == ·) acc.1 gm.1 Marker.any,
         if gm.2 ∈ acc.2 then acc.2 else acc.2 ++ [gm.2])
      else acc)
    (markers, seen)

/-- The promotion loop of `_solve_in_compatibility_mode` over all packages,
with the memoized `equivalent_markers` set starting empty. -/
def promoteMarkers (covers : Marker → Bool) (packages : PkgMap) : PkgMap :=
  (packages.foldl (fun (st : PkgMap × List Marker) e =>
      let r := promoteOne covers st.2 e.2.markers
      (st.1 ++ [(e.1, { e.2 with markers := r.1 })], r.2))
    ([], [])).1

/-! ## A model of the external python-constraint library

`get_python_constraint_from_marker` and `VersionConstraint.allows_all` live in
the external core library; they are modelled here over minor-version
intervals, and the §4.H simplifier (absent from the solver source) is
modelled from the spec. -/

/-- A python constraint, as the interval `[lo, hi)` of minor versions
(`hi = none` means unbounded). -/
structure PyC where
  lo : Nat
  hi : Option Nat
deriving DecidableEq, Repr

/-- `c.allows_all(d)`: every version allowed by `d` is allowed by `c`. -/
def PyC.allowsAll (c d : PyC) : Bool :=
  c.lo ≤ d.lo &&
    match c.hi, d.hi with
    | none, _ => true
    | some h, some h2 => h2 ≤ h
    | some _, none => false

/-- Interval intersection. -/
def PyC.inter (c d : PyC) : PyC :=
  ⟨max c.lo d.lo,
   match c.hi, d.hi with
   | none, h => h
   | h, none => h
   | some a, some b => some (min a b)⟩

/-- Interval hull (for disjunctions). -/
def PyC.hull (c d : PyC) : PyC :=
  ⟨min c.lo d.lo,
   match c.hi, d.hi with
   | none, _ => none
   | _, none => none
   | some a, some b => some (max a b)⟩

/-- `get_python_constraint_from_marker` (external), over the interval
model: non-python atoms impose no constraint. -/
def pyConstraintOf : Marker → PyC
  | .atom (.pyGe n) => ⟨n, none⟩
  | .atom (.pyLt n) => ⟨0, some n⟩
  | .atom _ => ⟨0, none⟩
  | .any => ⟨0, none⟩
  | .empty => ⟨0, some 0⟩
  | .conj ms => (pyConstraintList ms).foldl PyC.inter ⟨0, none⟩
  | .disj ms =>
      match pyConstraintList ms with
      | [] => ⟨0, some 0⟩
      | c :: cs => cs.foldl PyC.hull c
where
  /-- The extracted constraints of the members. -/
  pyConstraintList : List Marker → List PyC
  | [] => []
  | m :: ms => pyConstraintOf m :: pyConstraintList ms

/-- The concrete promotion test of the source: the marker mentions only
`python_version` and its extracted constraint allows all of the project's
python constraint. -/
def pyCovers (projectPy : PyC) (m : Marker) : Bool :=
  m = m.onlyPy && (pyConstraintOf m).allowsAll projectPy

/-- Is an atomic clause subsumed by (true throughout) the project's python
constraint? -/
def MAtom.subsumedBy (a : MAtom) (proj : PyC) : Bool :=
  match a with
  | .pyGe n => n ≤ proj.lo
  | .pyLt n =>
      match proj.hi with
      | some h => h ≤ n
      | none => false
  | _ => false

/-- Modelled from the spec: the §4.H marker simplifier
(`marker.reduce_by_python_constraint(python_constraint)`, "removal of any
clause subsumed by the project's interpreter constraint"), which the solver
source never calls. -/
def reduceByPy (proj : PyC) : Marker → Marker
  | .atom a => if a.subsumedBy proj then .any else .atom a
  | .conj ms => Marker.mkConj
      (((reduceByPyList proj ms).filter fun m => m ≠ .any).dedup)
  | .disj ms =>
      let rs := reduceByPyList proj ms
      if .any ∈ rs then .any else Marker.mkDisj rs.dedup
  | m => m
where
  /-- The simplifier mapped over the members. -/
  reduceByPyList (proj : PyC) : List Marker → List Marker
  | [] => []
  | m :: ms => reduceByPy proj m :: reduceByPyList proj ms

/-! ## The claim-side marker equation (spec §4.E)

The fixed-point goal stated by the spec: at convergence, every group marker
of a package equals the union, over its back-edge parents, of the parent's
own group marker intersected with the edge marker (the edge marker alone,
spread over the child's groups, when the parent has no groups). -/

/-- The marker dict the spec's recurrence assigns to a package `c`, computed
from a (final) package map: starting from `EmptyMarker` per group, each
back-edge entry `(p, m)` contributes `p.markers[g] ∩ m` to every `g` of
`p.groups` when `p.groups` is non-empty, and `m` itself to every group of `c`
otherwise. -/
def claimMarkersFor (pkgs : PkgMap) (tbl : MarkerTbl) (c : Pkg)
    (cgroups : List String) : List (String × Marker) :=
  ((alGet pkgEq tbl c).getD []).foldl (fun tm pm =>
      if (lookInfo pkgs pm.1).groups.isEmpty then
        cgroups.foldl (fun t g =>
          alPut (· == ·) t g
            (((alGet (· == ·) t g).getD .empty).unionM pm.2)) tm
      else
        (lookInfo pkgs pm.1).groups.foldl (fun t g =>
          alPut (· == ·) t g
            (((alGet (· == ·) t g).getD .empty).unionM
              (((alGet (· == ·) (lookInfo pkgs pm.1).markers g).getD
                .empty).intersectM pm.2))) tm)
    (tmInit cgroups)


/-- Two maps assign the same depths everywhere (the loop never writes the
depth field). -/
def DepthsEq (a b : PkgMap) : Prop :=
  ∀ p : Pkg, (lookInfo b p).depth = (lookInfo a p).depth

/-- A package's stored entry satisfies the spec's marker equation against
the map `m`, with a complete key set. -/
def cmCorr (tbl : MarkerTbl) (m : PkgMap) (p : Pkg) (info : TInfo) : Prop :=
  info.markers = claimMarkersFor m tbl p info.groups ∧ info.complete

/-- Acyclicity of the back-edge table: every parent with groups lies
strictly below its child in depth (and at non-negative depth). -/
def CmAcyclic (pkgs : PkgMap) (tbl : MarkerTbl) : Prop :=
  ∀ ce ∈ tbl, ∀ pm ∈ ce.2,
    (lookInfo pkgs pm.1).groups.isEmpty = true ∨
    (0 ≤ (lookInfo pkgs pm.1).depth ∧
      (lookInfo pkgs pm.1).depth < (lookInfo pkgs ce.1).depth)

instance (pkgs : PkgMap) (tbl : MarkerTbl) : Decidable (CmAcyclic pkgs tbl) :=
  inferInstanceAs (Decidable (∀ ce ∈ tbl, ∀ pm ∈ ce.2,
    (lookInfo pkgs pm.1).groups.isEmpty = true ∨
    (0 ≤ (lookInfo pkgs pm.1).depth ∧
      (lookInfo pkgs pm.1).depth < (lookInfo pkgs ce.1).depth)))

/-- The invariant of the acyclic pass after all levels below `t`: the flag
is clear, keys, groups and depths are untouched, entries below `t` satisfy
the marker equation against the current map, entries at `t` or above (or
negative) are untouched. -/
def CmInv (tbl : MarkerTbl) (pkgs0 : PkgMap) (t : Int) (st : PkgMap × Bool) :
    Prop :=
  st.2 = false ∧ alKeys st.1 = alKeys pkgs0 ∧ GroupsEq pkgs0 st.1 ∧
  DepthsEq pkgs0 st.1 ∧
  ∀ p info, alGet pkgEq st.1 p = some info →
    (0 ≤ info.depth → info.depth < t → cmCorr tbl st.1 p info) ∧
    (info.depth < 0 ∨ t ≤ info.depth → alGet pkgEq pkgs0 p = some info)

/-- The invariant in the middle of level `d`, with `qs` the packages of
the level still to process: level-`d` entries still pending are untouched,
level-`d` entries already processed satisfy the equation. -/
def CmInnerInv (tbl : MarkerTbl) (pkgs0 : PkgMap) (d : Int) (qs : List Pkg)
    (st : PkgMap × Bool) : Prop :=
  st.2 = false ∧ alKeys st.1 = alKeys pkgs0 ∧ GroupsEq pkgs0 st.1 ∧
  DepthsEq pkgs0 st.1 ∧
  ∀ p info, alGet pkgEq st.1 p = some info →
    (0 ≤ info.depth → info.depth < d → cmCorr tbl st.1 p info) ∧
    (info.depth < 0 ∨ d < info.depth → alGet pkgEq pkgs0 p = some info) ∧
    (info.depth = d →
      (p.pid ∈ qs.map Pkg.pid → alGet pkgEq pkgs0 p = some info) ∧
      (p.pid ∉ qs.map Pkg.pid → cmCorr tbl st.1 p info))

/-- Processing one depth level of the pass. -/
def cmLevel (tbl : MarkerTbl) (pkgs0 : PkgMap) (st : PkgMap × Bool) (d : Nat) :
    PkgMap × Bool :=
  ((pkgs0.filter fun e => e.2.depth == (d : Int)).map Prod.fst).foldl
    (cmProcessOne tbl) st

/-! ## Concrete fixtures

Small concrete package universes used by the witnesses and counterexamples.
`dpM g o` builds a dependency with constraint `[1]` accepting the version `1`
used by all fixture packages. -/

/-- A main-group, non-optional dependency on `name` under marker `m`. -/
def dpM (name : String) (m : Marker) : Dep :=
  ⟨name, [], [1], m, ["main"], false, []⟩

/-- A featureless package at version `1`. -/
def pkM (name : String) (reqs : List Dep) : Pkg := ⟨name, 1, [], reqs, false⟩

/-- `sys_platform == "win32"`. -/
def mWin : Marker := .atom (.platform "win32")

/-- `sys_platform == "linux"`. -/
def mLin : Marker := .atom (.platform "linux")

/-- `python_version >= "3.8"`. -/
def mPy8 : Marker := .atom (.pyGe 8)

/-- `python_version >= "3.9"`. -/
def mPy9 : Marker := .atom (.pyGe 9)

/-- Cycle fixture: `root → a` under win32, `root → b` under linux, and the
two-cycle `a → b` (py ≥ 3.8), `b → a` (py ≥ 3.9). -/
def aCyc : Pkg := pkM "a" [dpM "b" mPy8]

/-- The `b` package of the cycle fixture. -/
def bCyc : Pkg := pkM "b" [dpM "a" mPy9]

/-- The root of the cycle fixture. -/
def rootCyc : Pkg :=
  { name := "root", version := 1, features := [],
    requires := [dpM "a" mWin, dpM "b" mLin], isRoot := true }

/-- The flat package list of the cycle fixture. -/
def pkgsCyc : List Pkg := [rootCyc, aCyc, bCyc]

/-- The source node of the cycle fixture (the value
`mkPNode rootCyc pkgsCyc none none none` succeeds with). -/
def srcCyc : PNode :=
  { package := rootCyc, packages := pkgsCyc, dep := none, marker := .any,
    depth := -1, groups := [], optional := true }

/-- The DFS of the cycle fixture (its source node never fails to build). -/
def dfsCyc : Option (List (List PNode) × MarkerTbl) :=
  match (mkPNode rootCyc pkgsCyc none none none).toOption with
  | some src => depthFirstSearch 20 src
  | none => none

/-- The aggregated package map of the cycle fixture. -/
def cmapCyc : PkgMap :=
  match dfsCyc with
  | some x => x.1.map aggregatePackageNodes
  | none => []

/-- The back-edge marker table of the cycle fixture. -/
def tblCyc : MarkerTbl :=
  match dfsCyc with
  | some x => x.2
  | none => []

/-- A bare helper package `p` for the `calculate_markers` fixtures. -/
def pBadC8 : Pkg := pkM "p" []

/-- A bare helper package `q` for the `calculate_markers` fixtures. -/
def qBadC8 : Pkg := pkM "q" []

/-- A map on which `calculate_markers` never terminates: `p` sits at depth
`-1` (outside every pass) with a non-empty group list and no markers, so it
is forever incomplete, and `q` at depth 0 has `p` as a back-edge parent. -/
def badPkgsC8 : PkgMap :=
  [(pBadC8, ⟨-1, ["main"], []⟩), (qBadC8, ⟨0, ["main"], []⟩)]

/-- The back-edge table of the divergence fixture: `q`'s only parent is
`p`, under the trivial marker. -/
def badTblC8 : MarkerTbl := [(qBadC8, [(pBadC8, Marker.any)])]

/-- The fixed point the diverging loop cycles on: `q`'s markers are reset
to `{main: EmptyMarker}` on every pass, with the incomplete flag set. -/
def stFixC8 : PkgMap :=
  [(pBadC8, ⟨-1, ["main"], []⟩),
   (qBadC8, ⟨0, ["main"], [("main", Marker.empty)]⟩)]

/-- The same shape with the negative-depth entry's groups empty (as the
root's always are in aggregation output): termination is restored. -/
def okPkgsC8 : PkgMap := [(pBadC8, ⟨-1, [], []⟩), (qBadC8, ⟨0, ["main"], []⟩)]

/-- The aggregated map of the cycle fixture, written out: root at depth
`-1`, `a` at 0, `b` at 1, no markers yet. -/
def cmapCycLit : PkgMap :=
  [(rootCyc, ⟨-1, [], []⟩), (aCyc, ⟨0, ["main"], []⟩), (bCyc, ⟨1, ["main"], []⟩)]

/-- The back-edge table of the cycle fixture, written out. -/
def tblCycLit : MarkerTbl :=
  [(aCyc, [(rootCyc, mWin), (bCyc, mPy9)]),
   (bCyc, [(aCyc, mPy8), (rootCyc, mLin)])]

/-- The marker `calculate_markers` converges to for `a` on the cycle
fixture: `win32 ∨ (b-from-pass-1 ∧ py ≥ 3.9)` — built from `b`'s
first-pass value, not `b`'s final one. -/
def aFinM : Marker :=
  .disj [.atom (.platform "win32"),
    .conj [.disj [.conj [.atom (.platform "win32"), .atom (.pyGe 8)],
      .atom (.platform "linux")], .atom (.pyGe 9)]]

/-- The converged marker for `b`: built from `a`'s final value. -/
def bFinM : Marker :=
  .disj [.conj [aFinM, .atom (.pyGe 8)], .atom (.platform "linux")]

/-- The converged map on the cycle fixture. -/
def finCycLit : PkgMap :=
  [(rootCyc, ⟨-1, [], []⟩), (aCyc, ⟨0, ["main"], [("main", aFinM)]⟩),
   (bCyc, ⟨1, ["main"], [("main", bFinM)]⟩)]

/-- Root-base-name fixture: a root named `r` (version 2) depending on a
package also named `r` (version 1). -/
def rootR : Pkg :=
  { name := "r", version := 2, features := [], requires := [dpM "r" mWin],
    isRoot := true }

/-- The non-root package sharing the root's base name. -/
def rLow : Pkg := pkM "r" []

/-- The flat package list of the root-base-name fixture. -/
def pkgsR : List Pkg := [rootR, rLow]

/-- The source node of the root-base-name fixture. -/
def srcR : PNode :=
  { package := rootR, packages := pkgsR, dep := none, marker := .any,
    depth := -1, groups := [], optional := true }

/-- The DFS of the root-base-name fixture. -/
def dfsR : Option (List (List PNode) × MarkerTbl) := depthFirstSearch 20 srcR

/-- The aggregated package map of the root-base-name fixture. -/
def cmapR : PkgMap :=
  match dfsR with
  | some x => x.1.map aggregatePackageNodes
  | none => []

/-- The aggregated map of the root-base-name fixture, written out: the
non-root `r` ends up at depth `-1`. -/
def cmapRLit : PkgMap := [(rootR, ⟨-1, [], []⟩), (rLow, ⟨-1, ["main"], []⟩)]

/-- The final DFS state of the cycle fixture. -/
def dfsStCyc : DfsState :=
  (dfsVisit 20 srcCyc ⟨[], [], [], []⟩).getD ⟨[], [], [], []⟩

/-- The final depth assignment of the cycle fixture. -/
def dmCyc : List (NodeId × Int) := visitPass dfsStCyc.backEdges dfsStCyc.sorted

/-- The DFS node of package `a` in the cycle fixture. -/
def aNodeCyc : PNode :=
  { package := aCyc, packages := pkgsCyc, dep := some (dpM "a" mWin),
    marker := mWin, depth := -1, groups := ["main"], optional := false }

/-- One DFS edge: `b` is among the children enumerated from `a`. -/
def ReachStep (a b : PNode) : Prop := b ∈ a.reachable

/-- Lookup in the back-edge marker table: `markers[c][p]`. -/
def tblGet (tbl : MarkerTbl) (c p : Pkg) : Option Marker :=
  alGet pkgEq ((alGet pkgEq tbl c).getD []) p

/-- Provenance of a back-edge marker table entry: the keys are the packages of
a parent node and of one of its enumerated children, and the value is the
child's edge marker, stripped of extras exactly when the parent is not the
root. -/
def ProvEdge (c p : Pkg) (v : Marker) : Prop :=
  ∃ parent child : PNode, child ∈ parent.reachable ∧
    c.pid = child.package.pid ∧ p.pid = parent.package.pid ∧
    v = if parent.package.isRoot then child.marker
        else child.marker.withoutExtras

/-- Every entry of the second table is an entry of the first or has edge
provenance. -/
def TblExt (t t' : MarkerTbl) : Prop :=
  ∀ c p v, tblGet t' c p = some v → tblGet t c p = some v ∨ ProvEdge c p v

/-- Well-formed task stacks: every pending `enter parent out` task really is
one of `parent`'s enumerated edges. -/
def TaskWf : List DTask → Prop
  | [] => True
  | .enter parent out :: rest => out ∈ parent.reachable ∧ TaskWf rest
  | .leave _ :: rest => TaskWf rest

/-- Feature-folding fixture (one duplicate under a different marker): the
base `foo` requires `bar` under `python_version >= "3.8"`. -/
def fooBase : Pkg := pkM "foo" [dpM "bar" mPy8]

/-- The feature variant `foo[x]`, requiring `bar` under
`python_version >= "3.9"`. -/
def fooFeat : Pkg := ⟨"foo", 1, ["x"], [dpM "bar" mPy9], false⟩

/-- The `bar` package of the folding fixture. -/
def barPkg : Pkg := pkM "bar" []

/-- The root of the folding fixture, requiring `foo` and `foo[x]`. -/
def rootFold : Pkg :=
  { name := "rootfold", version := 1, features := [],
    requires := [dpM "foo" mWin,
      ⟨"foo", ["x"], [1], mLin, ["main"], false, []⟩],
    isRoot := true }

/-- The flat package list of the folding fixture. -/
def pkgsFold : List Pkg := [rootFold, fooBase, fooFeat, barPkg]

/-- Self-dependency fixture: the base `foo2` requires itself (under win32)
and `bar2` twice, under two different markers; the variant `foo2[x]`
requires `bar2` under the second marker. -/
def fooSelfP : Pkg :=
  pkM "foo2" [dpM "foo2" mWin, dpM "bar2" mPy8, dpM "bar2" mPy9]

/-- The feature variant `foo2[x]`. -/
def fooSelfX : Pkg := ⟨"foo2", 1, ["x"], [dpM "bar2" mPy9], false⟩

/-- The `bar2` package of the self-dependency fixture. -/
def barPkg2 : Pkg := pkM "bar2" []

/-- The root of the self-dependency fixture. -/
def rootSelf : Pkg :=
  { name := "rootself", version := 1, features := [],
    requires := [dpM "foo2" mWin,
      ⟨"foo2", ["x"], [1], mLin, ["main"], false, []⟩],
    isRoot := true }

/-- The flat package list of the self-dependency fixture. -/
def pkgsSelf : List Pkg := [rootSelf, fooSelfP, fooSelfX, barPkg2]

/-- A package carrying the marker of the C6 fixture. -/
def pkgC6 : Pkg := pkM "c6" []

/-- `python_version >= "3.6" and sys_platform == "linux"` — reducible under
a project constraint of `python_version >= "3.8"` but not only-python. -/
def mC6 : Marker := .conj [.atom (.pyGe 6), .atom (.platform "linux")]

/-- The merged package map of the C6 fixture. -/
def mapC6 : PkgMap := [(pkgC6, ⟨0, ["main"], [("main", mC6)]⟩)]

/-- The claim-side pointwise promotion: replace exactly the markers
satisfying the promotion test by `AnyMarker`. -/
def promoteMap (covers : Marker → Bool) (markers : List (String × Marker)) :
    List (String × Marker) :=
  markers.map fun gm => (gm.1, if covers gm.2 then Marker.any else gm.2)

/-- The claim-side override marker: the intersection, over all replacement
dependencies (flattened across the override's packages), of
`dep.marker.without_extras()`. -/
def ovmFlat (override : Override) : Marker :=
  ((override.flatMap fun e => e.2.map fun sd =>
    sd.2.marker.withoutExtras).foldl Marker.intersectM .any)

/-- The claim-side merged info for a package already in the accumulator:
maximal depth, ordered union of the groups, and for each group of the new
info the accumulated marker (defaulting to `EmptyMarker`) union
(override marker ∩ new marker). -/
def mergedInfoSpec (om : Marker) (pinfo ninfo : TInfo) : TInfo :=
  { depth := max pinfo.depth ninfo.depth,
    groups := pinfo.groups ++ ninfo.groups.filter (fun g => ¬ g ∈ pinfo.groups),
    markers := ninfo.markers.foldl (fun ms gm =>
      alPut (· == ·) ms gm.1
        (((alGet (· == ·) ms gm.1).getD .empty).unionM
          (om.intersectM gm.2))) pinfo.markers }

/-- The claim-side requirement merge: append every dependency of the new
package result that is not already among the stored package's requires. -/
def addedReqs (np k : Pkg) : Pkg :=
  { k with requires := np.requires.foldl (fun rs d =>
      if rs.any (fun d2 => d2.eqv d) then rs else rs ++ [d]) k.requires }

/-- The claim-side info stored for a package new to the accumulator: every
group marker replaced by override marker ∩ marker. -/
def newInfoSpec (om : Marker) (ninfo : TInfo) : TInfo :=
  { ninfo with
    markers := ninfo.markers.map (fun gm => (gm.1, om.intersectM gm.2)) }

/-! ## Association-list lemmas

The key-comparison functions in use (`pkgEq`, `· == ·`) all decide equality
of a projection of the key; the lemmas are stated for any such comparison. -/

section AssocLemmas

variable {α β κ : Type} (eq : α → α → Bool) (K : α → κ)

theorem alGet_alPut_same (hK : ∀ a b, eq a b = true ↔ K a = K b)
    (l : List (α × β)) (k k' : α) (v : β)
    (h : K k' = K k) : alGet eq (alPut eq l k v) k' = some v := by
  induction l with
  | nil => simp [alGet, alPut, (hK k' k).mpr h]
  | cons e rest ih =>
      by_cases hk : eq k e.1 = true
      · simp [alPut, hk, alGet, (hK k' e.1).mpr (h.trans ((hK k e.1).mp hk))]
      · have hk' : ¬ eq k' e.1 = true := fun hc =>
          hk ((hK k e.1).mpr (h ▸ (hK k' e.1).mp hc))
        simp only [alPut, hk, if_false, alGet, hk', ite_false]
        exact ih

theorem alGet_alPut_other (hK : ∀ a b, eq a b = true ↔ K a = K b)
    (l : List (α × β)) (k k' : α) (v : β)
    (h : K k' ≠ K k) : alGet eq (alPut eq l k v) k' = alGet eq l k' := by
  induction l with
  | nil =>
      have : ¬ eq k' k = true := fun hc => h ((hK k' k).mp hc)
      simp [alGet, alPut, this]
  | cons e rest ih =>
      by_cases hk : eq k e.1 = true
      · have hk' : ¬ eq k' e.1 = true := fun hc =>
          h (((hK k' e.1).mp hc).trans ((hK k e.1).mp hk).symm)
        simp [alPut, hk, alGet, hk']
      · simp only [alPut, hk, if_false, alGet]
        by_cases hk' : eq k' e.1 = true
        · simp [hk']
        · simp only [hk', ite_false]
          exact ih

theorem alKeys_alPut_of_mem (hK : ∀ a b, eq a b = true ↔ K a = K b)
    (l : List (α × β)) (k : α) (v : β)
    (h : ∃ a ∈ alKeys l, K a = K k) :
    alKeys (alPut eq l k v) = alKeys l := by
  induction l with
  | nil => simp [alKeys] at h
  | cons e rest ih =>
      by_cases hk : eq k e.1 = true
      · simp [alPut, hk, alKeys]
      · have h' : ∃ a ∈ alKeys rest, K a = K k := by
          rcases h with ⟨a, ha, hak⟩
          simp only [alKeys, List.map_cons, List.mem_cons] at ha
          rcases ha with ha | ha
          · exact absurd ((hK k e.1).mpr (ha ▸ hak.symm)) hk
          · exact ⟨a, ha, hak⟩
        simp only [alPut, hk, if_false, alKeys, List.map_cons]
        exact congrArg _ (ih h')

theorem alPut_of_not_mem (hK : ∀ a b, eq a b = true ↔ K a = K b)
    (l : List (α × β)) (k : α) (v : β)
    (h : ∀ a ∈ alKeys l, K a ≠ K k) :
    alPut eq l k v = l ++ [(k, v)] := by
  induction l with
  | nil => simp [alPut]
  | cons e rest ih =>
      have hk : ¬ eq k e.1 = true := fun hc =>
        h e.1 (by simp [alKeys]) ((hK k e.1).mp hc).symm
      have h' : ∀ a ∈ alKeys rest, K a ≠ K k := by
        intro a ha
        refine h a ?_
        simp only [alKeys, List.map_cons, List.mem_cons]
        exact Or.inr ha
      simp only [alPut, hk, if_false, List.cons_append]
      rw [ih h']
      simp

theorem alGet_eq_none (hK : ∀ a b, eq a b = true ↔ K a = K b)
    (l : List (α × β)) (k : α)
    (h : ∀ a ∈ alKeys l, K a ≠ K k) : alGet eq l k = none := by
  induction l with
  | nil => rfl
  | cons e rest ih =>
      have hk : ¬ eq k e.1 = true := fun hc =>
        h e.1 (by simp [alKeys]) ((hK k e.1).mp hc).symm
      have h' : ∀ a ∈ alKeys rest, K a ≠ K k := by
        intro a ha
        refine h a ?_
        simp only [alKeys, List.map_cons, List.mem_cons]
        exact Or.inr ha
      simp only [alGet, hk, ite_false]
      exact ih h'

theorem alGet_congr (hK : ∀ a b, eq a b = true ↔ K a = K b)
    (l : List (α × β)) (k k' : α) (h : K k = K k') :
    alGet eq l k = alGet eq l k' := by
  induction l with
  | nil => rfl
  | cons e rest ih =>
      simp only [alGet]
      by_cases hk : eq k e.1 = true
      · rw [if_pos hk, if_pos ((hK k' e.1).mpr (h ▸ (hK k e.1).mp hk))]
      · rw [if_neg hk, if_neg (fun hc => hk ((hK k e.1).mpr
          (h.trans ((hK k' e.1).mp hc))))]
        exact ih

theorem alGet_mem (hK : ∀ a b, eq a b = true ↔ K a = K b)
    (l : List (α × β)) (k : α) (v : β)
    (h : alGet eq l k = some v) :
    ∃ a, (a, v) ∈ l ∧ K a = K k := by
  induction l with
  | nil => simp [alGet] at h
  | cons e rest ih =>
      by_cases hk : eq k e.1 = true
      · simp only [alGet, hk, ite_true, Option.some.injEq] at h
        exact ⟨e.1, by simp [← h], ((hK k e.1).mp hk).symm⟩
      · simp only [alGet, hk, ite_false] at h
        rcases ih h with ⟨a, ha, hak⟩
        exact ⟨a, by simp [ha], hak⟩

theorem alKeys_alPut_sub (l : List (α × β)) (k : α) (v : β) :
    ∀ a ∈ alKeys (alPut eq l k v), a ∈ alKeys l ∨ a = k := by
  induction l with
  | nil =>
      intro a ha
      exact Or.inr (List.mem_singleton.mp ha)
  | cons e rest ih =>
      intro a ha
      by_cases hk : eq k e.1 = true
      · rw [show alPut eq (e :: rest) k v = (e.1, v) :: rest from by
          simp [alPut, hk]] at ha
        rcases List.mem_cons.mp ha with h | h
        · exact Or.inl (h ▸ List.mem_cons_self _ _)
        · exact Or.inl (List.mem_cons_of_mem _ h)
      · rw [show alPut eq (e :: rest) k v = e :: alPut eq rest k v from by
          simp [alPut, hk]] at ha
        rcases List.mem_cons.mp ha with h | h
        · exact Or.inl (h ▸ List.mem_cons_self _ _)
        · rcases ih a h with h' | h'
          · exact Or.inl (List.mem_cons_of_mem _ h')
          · exact Or.inr h'

theorem alKeys_alPut_sup (l : List (α × β)) (k : α) (v : β) :
    ∀ a ∈ alKeys l, a ∈ alKeys (alPut eq l k v) := by
  induction l with
  | nil => intro a ha; exact absurd ha (List.not_mem_nil a)
  | cons e rest ih =>
      intro a ha
      rcases List.mem_cons.mp ha with h | h
      · by_cases hk : eq k e.1 = true
        · rw [show alPut eq (e :: rest) k v = (e.1, v) :: rest from by
            simp [alPut, hk]]
          exact h ▸ List.mem_cons_self _ _
        · rw [show alPut eq (e :: rest) k v = e :: alPut eq rest k v from by
            simp [alPut, hk]]
          exact h ▸ List.mem_cons_self _ _
      · by_cases hk : eq k e.1 = true
        · rw [show alPut eq (e :: rest) k v = (e.1, v) :: rest from by
            simp [alPut, hk]]
          exact List.mem_cons_of_mem _ h
        · rw [show alPut eq (e :: rest) k v = e :: alPut eq rest k v from by
            simp [alPut, hk]]
          exact List.mem_cons_of_mem _ (ih a h)

theorem alKeys_alPut_self (hK : ∀ a b, eq a b = true ↔ K a = K b)
    (l : List (α × β)) (k : α) (v : β) :
    ∃ a ∈ alKeys (alPut eq l k v), K a = K k := by
  induction l with
  | nil => exact ⟨k, List.mem_singleton.mpr rfl, rfl⟩
  | cons e rest ih =>
      by_cases hk : eq k e.1 = true
      · refine ⟨e.1, ?_, ((hK k e.1).mp hk).symm⟩
        rw [show alPut eq (e :: rest) k v = (e.1, v) :: rest from by
          simp [alPut, hk]]
        exact List.mem_cons_self _ _
      · rcases ih with ⟨a, ha, hak⟩
        refine ⟨a, ?_, hak⟩
        rw [show alPut eq (e :: rest) k v = e :: alPut eq rest k v from by
          simp [alPut, hk]]
        exact List.mem_cons_of_mem _ ha

theorem alGet_of_mem_nodup (hK : ∀ a b, eq a b = true ↔ K a = K b)
    (l : List (α × β)) (hnd : (l.map fun e => K e.1).Nodup)
    (a : α) (v : β) (h : (a, v) ∈ l) : alGet eq l a = some v := by
  induction l with
  | nil => simp at h
  | cons e rest ih =>
      rw [List.map_cons] at hnd
      rcases List.mem_cons.mp h with heq | hmem
      · cases heq.symm
        simp [alGet, (hK a a).mpr rfl]
      · have hk : ¬ eq a e.1 = true := by
          intro hc
          have hKa := (hK a e.1).mp hc
          exact (List.nodup_cons.mp hnd).1
            (List.mem_map.mpr ⟨(a, v), hmem, hKa⟩)
        simp only [alGet, hk, ite_false]
        exact ih (List.nodup_cons.mp hnd).2 hmem

theorem alGet_isSome_of_mem_keys (hK : ∀ a b, eq a b = true ↔ K a = K b)
    (l : List (α × β)) (k : α) (h : ∃ a ∈ alKeys l, K a = K k) :
    ∃ v, alGet eq l k = some v := by
  induction l with
  | nil => simp [alKeys] at h
  | cons e rest ih =>
      by_cases hk : eq k e.1 = true
      · exact ⟨e.2, by simp [alGet, hk]⟩
      · have h' : ∃ a ∈ alKeys rest, K a = K k := by
          rcases h with ⟨a, ha, hak⟩
          simp only [alKeys, List.map_cons, List.mem_cons] at ha
          rcases ha with ha | ha
          · exact absurd ((hK k e.1).mpr (ha ▸ hak.symm)) hk
          · exact ⟨a, ha, hak⟩
        rcases ih h' with ⟨v, hv⟩
        exact ⟨v, by simp only [alGet, hk, ite_false]; exact hv⟩

end AssocLemmas

/-- `pkgEq` decides equality of the package identity. -/
theorem pkgEq_iff (a b : Pkg) : pkgEq a b = true ↔ a.pid = b.pid := by
  simp [pkgEq]

/-- String `==` decides equality. -/
theorem strBeq_iff (a b : String) : (a == b) = true ↔ a = b := by simp

/-- Children take producing dependency, groups and optional flag from
`self.dep or dependency`. -/
theorem reachable_dep_of_some (self : PNode) (d0 : Dep)
    (hd : self.dep = some d0) :
    ∀ c ∈ self.reachable, c.dep = some d0 ∧ c.groups = d0.groups ∧
      c.optional = d0.optional := by
  intro c hc
  simp only [PNode.reachable, List.mem_flatMap, List.mem_map,
    List.mem_filter] at hc
  rcases hc with ⟨d, _, pkg, _, hcc⟩
  subst hcc
  simp [mkChildNode, hd]

/-- Children of a node with no stored dependency (the root source node) take
their dependency from the immediate edge. -/
theorem reachable_dep_of_none (self : PNode) (hd : self.dep = none) :
    ∀ c ∈ self.reachable, ∃ d ∈ self.package.requires,
      c.dep = some d ∧ c.groups = d.groups ∧ c.optional = d.optional := by
  intro c hc
  simp only [PNode.reachable, List.mem_flatMap, List.mem_map,
    List.mem_filter] at hc
  rcases hc with ⟨d, hd', pkg, _, hcc⟩
  subst hcc
  exact ⟨d, hd', by simp [mkChildNode, hd]⟩

/-! ## Termination lemmas for `calculate_markers`

One pass of the `while` loop recomputes every processed package's marker
dict with keys exactly its groups, so after one pass every processed entry
is complete; the flag is set only by an incomplete parent with groups. -/

theorem lookInfo_congr (m : PkgMap) (a b : Pkg) (h : a.pid = b.pid) :
    lookInfo m a = lookInfo m b := by
  unfold lookInfo
  rw [alGet_congr pkgEq Pkg.pid pkgEq_iff m a b h]

theorem allGood_lookInfo (st : PkgMap) (hg : AllGoodVis st) (p : Pkg) :
    GoodInfo (lookInfo st p) := by
  unfold lookInfo
  cases h : alGet pkgEq st p with
  | none => exact Or.inl rfl
  | some info => exact hg p info h

/-- The one-package body, decomposed: the map update and the new flag. -/
theorem cmProcessOne_eq (tbl : MarkerTbl) (st : PkgMap × Bool) (q : Pkg) :
    cmProcessOne tbl st q =
      (alPut pkgEq st.1 q
        { lookInfo st.1 q with markers := (cmTmFold tbl st.1 st.2 q).1 },
       (cmTmFold tbl st.1 st.2 q).2) := rfl

theorem cmProcessOne_groups (tbl : MarkerTbl) (st : PkgMap × Bool)
    (q p : Pkg) :
    (lookInfo (cmProcessOne tbl st q).1 p).groups =
      (lookInfo st.1 p).groups := by
  rw [cmProcessOne_eq]
  by_cases hpid : p.pid = q.pid
  · unfold lookInfo
    rw [alGet_alPut_same pkgEq Pkg.pid pkgEq_iff st.1 q p _ hpid,
      alGet_congr pkgEq Pkg.pid pkgEq_iff st.1 p q hpid]
    rfl
  · unfold lookInfo
    rw [alGet_alPut_other pkgEq Pkg.pid pkgEq_iff st.1 q p _ hpid]

/-- Each step leaves the flag alone when the parent is good. -/
theorem cmStep_flag (pkgs : PkgMap) (cg : List String)
    (acc : List (String × Marker) × Bool) (pm : Pkg × Marker)
    (hgood : GoodInfo (lookInfo pkgs pm.1)) :
    (cmStep pkgs cg acc pm).2 = acc.2 := by
  unfold cmStep
  rcases hgood with he | hc
  · simp [he]
  · by_cases he : (lookInfo pkgs pm.1).groups.isEmpty = true
    · simp [he]
    · simp [he, hc]

theorem cmFold_flag_aux (pkgs : PkgMap) (cg : List String) :
    ∀ (l : List (Pkg × Marker)) (acc : List (String × Marker) × Bool),
      (∀ pm ∈ l, GoodInfo (lookInfo pkgs pm.1)) →
      (l.foldl (cmStep pkgs cg) acc).2 = acc.2 := by
  intro l
  induction l with
  | nil => intro acc _; rfl
  | cons pm l ih =>
      intro acc hgood
      rw [List.foldl_cons,
        ih _ (fun x hx => hgood x (List.mem_cons_of_mem _ hx)),
        cmStep_flag pkgs cg acc pm (hgood pm (List.mem_cons_self _ _))]

theorem cmTmFold_flag (tbl : MarkerTbl) (pkgs : PkgMap) (b : Bool) (q : Pkg)
    (hgood : ∀ pm ∈ (alGet pkgEq tbl q).getD ([] : List (Pkg × Marker)),
      GoodInfo (lookInfo pkgs pm.1)) :
    (cmTmFold tbl pkgs b q).2 = b := by
  unfold cmTmFold
  exact cmFold_flag_aux pkgs _ _ _ hgood

/-- Putting only keys that are already present keeps the key list. -/
theorem alKeys_foldPut {β : Type} (F : List (String × β) → String → β) :
    ∀ (gl : List String) (tm0 : List (String × β)),
      (∀ g ∈ gl, g ∈ alKeys tm0) →
      alKeys (gl.foldl (fun tm g => alPut (· == ·) tm g (F tm g)) tm0) =
        alKeys tm0 := by
  intro gl
  induction gl with
  | nil => intro tm0 _; rfl
  | cons g gl ih =>
      intro tm0 hmem
      rw [List.foldl_cons]
      have hk : alKeys (alPut (· == ·) tm0 g (F tm0 g)) = alKeys tm0 :=
        alKeys_alPut_of_mem (· == ·) id strBeq_iff tm0 g (F tm0 g)
          ⟨g, hmem g (List.mem_cons_self _ _), rfl⟩
      rw [ih _ (fun x hx => hk.symm ▸ hmem x (List.mem_cons_of_mem _ hx)), hk]

/-- Each step keeps the keys of the accumulator, provided the parent's
groups are among them. -/
theorem cmStep_keys (pkgs : PkgMap) (cg : List String)
    (acc : List (String × Marker) × Bool) (pm : Pkg × Marker)
    (hacc : alKeys acc.1 = cg)
    (hsub : (lookInfo pkgs pm.1).groups.isEmpty = false →
      ∀ g ∈ (lookInfo pkgs pm.1).groups, g ∈ cg) :
    alKeys (cmStep pkgs cg acc pm).1 = cg := by
  unfold cmStep
  by_cases he : (lookInfo pkgs pm.1).groups.isEmpty = true
  · simp only [he, if_true]
    rw [alKeys_foldPut _ cg acc.1 (fun g hg => hacc.symm ▸ hg)]
    exact hacc
  · have he' : (lookInfo pkgs pm.1).groups.isEmpty = false :=
      Bool.not_eq_true _ ▸ he
    by_cases hc : (lookInfo pkgs pm.1).complete
    · simp only [he, Bool.false_eq_true, if_false, hc, not_true, if_false]
      rw [alKeys_foldPut _ _ acc.1 (fun g hg => hacc.symm ▸ hsub he' g hg)]
      exact hacc
    · simp only [he, Bool.false_eq_true, if_false, hc, not_false_iff,
        if_true]
      exact hacc

theorem cmFold_keys_aux (pkgs : PkgMap) (cg : List String) :
    ∀ (l : List (Pkg × Marker)) (acc : List (String × Marker) × Bool),
      (∀ pm ∈ l, (lookInfo pkgs pm.1).groups.isEmpty = false →
        ∀ g ∈ (lookInfo pkgs pm.1).groups, g ∈ cg) →
      alKeys acc.1 = cg →
      alKeys ((l.foldl (cmStep pkgs cg) acc).1) = cg := by
  intro l
  induction l with
  | nil => intro acc _ hacc; exact hacc
  | cons pm l ih =>
      intro acc hsub hacc
      rw [List.foldl_cons]
      exact ih _ (fun x hx => hsub x (List.mem_cons_of_mem _ hx))
        (cmStep_keys pkgs cg acc pm hacc (hsub pm (List.mem_cons_self _ _)))

theorem tmInit_keys (gs : List String) : alKeys (tmInit gs) = gs := by
  induction gs with
  | nil => rfl
  | cons g gs ih =>
      unfold tmInit alKeys at ih ⊢
      simp only [List.map_cons, List.map_map] at ih ⊢
      rw [ih]

/-- The recomputed marker dict of a processed package has exactly the
package's groups as keys. -/
theorem cmTmFold_keys (tbl : MarkerTbl) (pkgs : PkgMap) (b : Bool) (q : Pkg)
    (hsub : ∀ pm ∈ (alGet pkgEq tbl q).getD ([] : List (Pkg × Marker)),
      (lookInfo pkgs pm.1).groups.isEmpty = false →
      ∀ g ∈ (lookInfo pkgs pm.1).groups, g ∈ (lookInfo pkgs q).groups) :
    alKeys (cmTmFold tbl pkgs b q).1 = (lookInfo pkgs q).groups := by
  unfold cmTmFold
  exact cmFold_keys_aux pkgs _ _ _ hsub (tmInit_keys _)

/-- Transport of the parent-groups hypothesis to any map with the same
groups. -/
theorem h2_at (tbl : MarkerTbl) (pkgs0 st : PkgMap) (q : Pkg)
    (h2 : CmParentGroupsSub pkgs0 tbl) (hge : GroupsEq pkgs0 st) :
    ∀ pm ∈ (alGet pkgEq tbl q).getD ([] : List (Pkg × Marker)),
      (lookInfo st pm.1).groups.isEmpty = false →
      ∀ g ∈ (lookInfo st pm.1).groups, g ∈ (lookInfo st q).groups := by
  intro pm hpm hne g hg
  cases htbl : alGet pkgEq tbl q with
  | none => rw [htbl] at hpm; simp at hpm
  | some ps =>
      rw [htbl] at hpm
      simp only [Option.getD_some] at hpm
      obtain ⟨a, hmem, hapid⟩ := alGet_mem pkgEq Pkg.pid pkgEq_iff tbl q ps htbl
      rw [hge pm.1] at hne hg
      have hga := h2 (a, ps) hmem pm hpm hne g hg
      rw [hge q, lookInfo_congr pkgs0 q a hapid.symm]
      exact hga

/-- The entry written by one step is complete. -/
theorem cmProcessOne_self_good (tbl : MarkerTbl) (pkgs0 : PkgMap)
    (h2 : CmParentGroupsSub pkgs0 tbl) (st : PkgMap × Bool) (q : Pkg)
    (hge : GroupsEq pkgs0 st.1) :
    ∀ p info, p.pid = q.pid →
      alGet pkgEq (cmProcessOne tbl st q).1 p = some info → GoodInfo info := by
  intro p info hpid hget
  rw [cmProcessOne_eq,
    alGet_alPut_same pkgEq Pkg.pid pkgEq_iff st.1 q p _ hpid] at hget
  cases hget
  refine Or.inr ?_
  show (lookInfo st.1 q).groups.toFinset = (alKeys (cmTmFold tbl st.1 st.2 q).1).toFinset
  rw [cmTmFold_keys tbl st.1 st.2 q (h2_at tbl pkgs0 st.1 q h2 hge)]

/-- A pass over good entries keeps the flag down and the entries good. -/
theorem cmFold_goodKeep (tbl : MarkerTbl) (pkgs0 : PkgMap)
    (h2 : CmParentGroupsSub pkgs0 tbl) :
    ∀ (l : List Pkg) (st : PkgMap × Bool),
      AllGoodVis st.1 → GroupsEq pkgs0 st.1 →
      (l.foldl (cmProcessOne tbl) st).2 = st.2 ∧
      AllGoodVis (l.foldl (cmProcessOne tbl) st).1 ∧
      GroupsEq pkgs0 (l.foldl (cmProcessOne tbl) st).1 := by
  intro l
  induction l with
  | nil => intro st hg hge; exact ⟨rfl, hg, hge⟩
  | cons q l ih =>
      intro st hg hge
      have hflag : (cmProcessOne tbl st q).2 = st.2 := by
        rw [cmProcessOne_eq]
        exact cmTmFold_flag tbl st.1 st.2 q
          (fun pm _ => allGood_lookInfo st.1 hg pm.1)
      have hge1 : GroupsEq pkgs0 (cmProcessOne tbl st q).1 := fun p =>
        (cmProcessOne_groups tbl st q p).trans (hge p)
      have hg1 : AllGoodVis (cmProcessOne tbl st q).1 := by
        intro p info hget
        by_cases hpid : p.pid = q.pid
        · exact cmProcessOne_self_good tbl pkgs0 h2 st q hge p info hpid hget
        · rw [cmProcessOne_eq,
            alGet_alPut_other pkgEq Pkg.pid pkgEq_iff st.1 q p _ hpid] at hget
          exact hg p info hget
      obtain ⟨ha, hb, hc⟩ := ih (cmProcessOne tbl st q) hg1 hge1
      exact ⟨by rw [List.foldl_cons, ha, hflag], by rw [List.foldl_cons]; exact hb,
        by rw [List.foldl_cons]; exact hc⟩

/-- A pass makes every entry good whose package is processed; entries
already good stay good. -/
theorem cmFold_makesGood (tbl : MarkerTbl) (pkgs0 : PkgMap)
    (h2 : CmParentGroupsSub pkgs0 tbl) :
    ∀ (l : List Pkg) (st : PkgMap × Bool),
      GroupsEq pkgs0 st.1 →
      (∀ p info, alGet pkgEq st.1 p = some info →
        GoodInfo info ∨ p.pid ∈ l.map Pkg.pid) →
      AllGoodVis (l.foldl (cmProcessOne tbl) st).1 ∧
      GroupsEq pkgs0 (l.foldl (cmProcessOne tbl) st).1 := by
  intro l
  induction l with
  | nil =>
      intro st hge hcond
      refine ⟨fun p info h => ?_, hge⟩
      rcases hcond p info h with hgood | hmem
      · exact hgood
      · simp at hmem
  | cons q l ih =>
      intro st hge hcond
      have hge1 : GroupsEq pkgs0 (cmProcessOne tbl st q).1 := fun p =>
        (cmProcessOne_groups tbl st q p).trans (hge p)
      have hcond1 : ∀ p info, alGet pkgEq (cmProcessOne tbl st q).1 p = some info →
          GoodInfo info ∨ p.pid ∈ l.map Pkg.pid := by
        intro p info hget
        by_cases hpid : p.pid = q.pid
        · exact Or.inl
            (cmProcessOne_self_good tbl pkgs0 h2 st q hge p info hpid hget)
        · rw [cmProcessOne_eq,
            alGet_alPut_other pkgEq Pkg.pid pkgEq_iff st.1 q p _ hpid] at hget
          rcases hcond p info hget with hgood | hmem
          · exact Or.inl hgood
          · simp only [List.map_cons, List.mem_cons] at hmem
            rcases hmem with hmem | hmem
            · exact absurd hmem hpid
            · exact Or.inr hmem
      obtain ⟨ha, hb⟩ := ih (cmProcessOne tbl st q) hge1 hcond1
      exact ⟨by rw [List.foldl_cons]; exact ha, by rw [List.foldl_cons]; exact hb⟩

/-- The initial accumulator of `cmMaxDepth` only grows. -/
theorem foldlMax_init_le :
    ∀ (l : List (Pkg × TInfo)) (a : Int),
      a ≤ l.foldl (fun a e => max a e.2.depth) a := by
  intro l
  induction l with
  | nil => intro a; exact le_refl a
  | cons e l ih =>
      intro a
      rw [List.foldl_cons]
      exact le_trans (le_max_left a e.2.depth) (ih _)

theorem cmMaxDepth_ge (pkgs : PkgMap) :
    ∀ e ∈ pkgs, e.2.depth ≤ cmMaxDepth pkgs := by
  unfold cmMaxDepth
  generalize (-1 : Int) = a
  induction pkgs generalizing a with
  | nil => intro e he; simp at he
  | cons x l ih =>
      intro e he
      rw [List.foldl_cons]
      rcases List.mem_cons.mp he with rfl | he
      · exact le_trans (le_max_right a e.2.depth) (foldlMax_init_le l _)
      · exact ih _ e he

/-- Every entry of non-negative depth is in the processing order. -/
theorem cmOrder_mem (pkgs : PkgMap) :
    ∀ e ∈ pkgs, 0 ≤ e.2.depth → e.1 ∈ cmOrder pkgs := by
  intro e he hd
  unfold cmOrder
  rw [List.mem_flatMap]
  refine ⟨e.2.depth.toNat, ?_, ?_⟩
  · rw [List.mem_range]
    have := cmMaxDepth_ge pkgs e he
    omega
  · rw [List.mem_map]
    refine ⟨e, ?_, rfl⟩
    rw [List.mem_filter]
    refine ⟨he, ?_⟩
    rw [Int.toNat_of_nonneg hd]
    exact beq_self_eq_true _

theorem cmProcessOne_depth (tbl : MarkerTbl) (st : PkgMap × Bool)
    (q p : Pkg) :
    (lookInfo (cmProcessOne tbl st q).1 p).depth =
      (lookInfo st.1 p).depth := by
  rw [cmProcessOne_eq]
  by_cases hpid : p.pid = q.pid
  · unfold lookInfo
    rw [alGet_alPut_same pkgEq Pkg.pid pkgEq_iff st.1 q p _ hpid,
      alGet_congr pkgEq Pkg.pid pkgEq_iff st.1 p q hpid]
    rfl
  · unfold lookInfo
    rw [alGet_alPut_other pkgEq Pkg.pid pkgEq_iff st.1 q p _ hpid]

theorem cmProcessOne_lookInfo_other (tbl : MarkerTbl) (st : PkgMap × Bool)
    (q p : Pkg) (h : p.pid ≠ q.pid) :
    lookInfo (cmProcessOne tbl st q).1 p = lookInfo st.1 p := by
  unfold lookInfo
  rw [cmProcessOne_eq]
  rw [alGet_alPut_other pkgEq Pkg.pid pkgEq_iff st.1 q p _ h]

theorem claimMarkersFor_pid_congr (m : PkgMap) (tbl : MarkerTbl) (p q : Pkg)
    (h : p.pid = q.pid) (gs : List String) :
    claimMarkersFor m tbl p gs = claimMarkersFor m tbl q gs := by
  unfold claimMarkersFor
  rw [alGet_congr pkgEq Pkg.pid pkgEq_iff tbl p q h]

theorem claimMarkersFor_congr (m m' : PkgMap) (tbl : MarkerTbl) (q : Pkg)
    (gs : List String)
    (h : ∀ pm ∈ (alGet pkgEq tbl q).getD ([] : List (Pkg × Marker)),
      (lookInfo m' pm.1).groups = (lookInfo m pm.1).groups ∧
      ((lookInfo m pm.1).groups.isEmpty = false →
        lookInfo m' pm.1 = lookInfo m pm.1)) :
    claimMarkersFor m' tbl q gs = claimMarkersFor m tbl q gs := by
  unfold claimMarkersFor
  refine List.foldl_ext _ _ _ ?_
  intro tm pm hpm
  obtain ⟨hgr, hfull⟩ := h pm hpm
  by_cases he : (lookInfo m pm.1).groups.isEmpty = true
  · rw [hgr]
    simp [he]
  · have he' : (lookInfo m pm.1).groups.isEmpty = false :=
      Bool.not_eq_true _ ▸ he
    rw [hfull he']

theorem cmFold_fst_eq_claim_aux (m : PkgMap) (cg : List String) :
    ∀ (l : List (Pkg × Marker)) (acc : List (String × Marker) × Bool),
      (∀ pm ∈ l, (lookInfo m pm.1).groups.isEmpty = false →
        (lookInfo m pm.1).complete) →
      (l.foldl (cmStep m cg) acc).1 =
        l.foldl (fun tm pm =>
          if (lookInfo m pm.1).groups.isEmpty then
            cg.foldl (fun t g =>
              alPut (· == ·) t g
                (((alGet (· == ·) t g).getD .empty).unionM pm.2)) tm
          else
            (lookInfo m pm.1).groups.foldl (fun t g =>
              alPut (· == ·) t g
                (((alGet (· == ·) t g).getD .empty).unionM
                  (((alGet (· == ·) (lookInfo m pm.1).markers g).getD
                    .empty).intersectM pm.2))) tm) acc.1 := by
  intro l
  induction l with
  | nil => intro acc _; rfl
  | cons pm l ih =>
      intro acc hc
      rw [List.foldl_cons, List.foldl_cons,
        ih _ (fun x hx => hc x (List.mem_cons_of_mem _ hx))]
      congr 1
      unfold cmStep
      by_cases he : (lookInfo m pm.1).groups.isEmpty = true
      · simp [he]
      · have hcomp := hc pm (List.mem_cons_self _ _) (Bool.not_eq_true _ ▸ he)
        simp [he, hcomp]

/-- When every parent with groups is complete, the code's fold agrees with
the claim-side equation over the same map. -/
theorem cmTmFold_eq_claim (tbl : MarkerTbl) (m : PkgMap) (b : Bool) (q : Pkg)
    (hc : ∀ pm ∈ (alGet pkgEq tbl q).getD ([] : List (Pkg × Marker)),
      (lookInfo m pm.1).groups.isEmpty = false →
      (lookInfo m pm.1).complete) :
    (cmTmFold tbl m b q).1 =
      claimMarkersFor m tbl q (lookInfo m q).groups := by
  unfold cmTmFold claimMarkersFor
  exact cmFold_fst_eq_claim_aux m _ _ _ hc

/-- Back-edge parents of `c` under acyclicity, read in any map with the
original groups and depths: empty groups, or strictly below `c`'s original
depth and non-negative. -/
theorem cmAcy_parents (tbl : MarkerTbl) (pkgs0 st : PkgMap) (c : Pkg)
    (hacy : CmAcyclic pkgs0 tbl) (hge : GroupsEq pkgs0 st)
    (hde : DepthsEq pkgs0 st) :
    ∀ pm ∈ (alGet pkgEq tbl c).getD ([] : List (Pkg × Marker)),
      (lookInfo st pm.1).groups.isEmpty = true ∨
      (0 ≤ (lookInfo st pm.1).depth ∧
        (lookInfo st pm.1).depth < (lookInfo pkgs0 c).depth) := by
  intro pm hpm
  cases htq : alGet pkgEq tbl c with
  | none => rw [htq] at hpm; simp at hpm
  | some ps =>
      rw [htq] at hpm
      simp only [Option.getD_some] at hpm
      obtain ⟨a, hmem, hapid⟩ := alGet_mem pkgEq Pkg.pid pkgEq_iff tbl c ps htq
      rcases hacy (a, ps) hmem pm hpm with hemp | ⟨hge0, hlt⟩
      · left
        rw [hge pm.1]
        exact hemp
      · right
        have hd1 := hde pm.1
        rw [lookInfo_congr pkgs0 a c hapid] at hlt
        exact ⟨hd1 ▸ hge0, hd1 ▸ hlt⟩

/-- Correctness of an entry is stable under one step at a package of depth
at least the entry's (acyclicity keeps the entry's parents untouched). -/
theorem cmCorr_stable (tbl : MarkerTbl) (pkgs0 : PkgMap)
    (hacy : CmAcyclic pkgs0 tbl) (st : PkgMap × Bool) (q : Pkg) (d : Int)
    (hge : GroupsEq pkgs0 st.1) (hde : DepthsEq pkgs0 st.1)
    (hqd : (lookInfo pkgs0 q).depth = d)
    (p : Pkg) (pv : TInfo) (hpv : alGet pkgEq st.1 p = some pv)
    (hpd : pv.depth ≤ d)
    (hcorr : cmCorr tbl st.1 p pv) :
    cmCorr tbl (cmProcessOne tbl st q).1 p pv := by
  refine ⟨?_, hcorr.2⟩
  rw [hcorr.1]
  refine (claimMarkersFor_congr st.1 (cmProcessOne tbl st q).1 tbl p
    pv.groups ?_).symm
  intro pm hpm
  refine ⟨cmProcessOne_groups tbl st q pm.1, ?_⟩
  intro hne
  rcases cmAcy_parents tbl pkgs0 st.1 p hacy hge hde pm hpm with hemp | ⟨_, hlt⟩
  · rw [hemp] at hne; cases hne
  · -- parent depth < p's original depth = pv.depth ≤ d; q's depth is d
    have hpd0 : (lookInfo pkgs0 p).depth = pv.depth := by
      have := hde p
      unfold lookInfo at this
      rw [hpv] at this
      simpa using this.symm
    refine cmProcessOne_lookInfo_other tbl st q pm.1 ?_
    intro hpid
    rw [hde pm.1, lookInfo_congr pkgs0 pm.1 q hpid, hqd, hpd0] at hlt
    omega

/-- One step of the inner (per-level) loop preserves the invariant. -/
theorem cmInner_step (tbl : MarkerTbl) (pkgs0 : PkgMap)
    (h2 : CmParentGroupsSub pkgs0 tbl) (hacy : CmAcyclic pkgs0 tbl)
    (hnd0 : (pkgs0.map fun e => e.1.pid).Nodup)
    (d : Int) (h0d : 0 ≤ d) (q : Pkg) (qs : List Pkg) (qinfo : TInfo)
    (st : PkgMap × Bool)
    (hinv : CmInnerInv tbl pkgs0 d (q :: qs) st)
    (hqmem : (q, qinfo) ∈ pkgs0) (hqd : qinfo.depth = d)
    (hqs : q.pid ∉ qs.map Pkg.pid) :
    CmInnerInv tbl pkgs0 d qs (cmProcessOne tbl st q) := by
  obtain ⟨hflag, hkeys, hge, hde, hent⟩ := hinv
  have hq0 : alGet pkgEq pkgs0 q = some qinfo :=
    alGet_of_mem_nodup pkgEq Pkg.pid pkgEq_iff pkgs0 hnd0 q qinfo hqmem
  have hq0d : (lookInfo pkgs0 q).depth = d := by
    unfold lookInfo; rw [hq0]; exact hqd
  have hqkey : q ∈ alKeys pkgs0 := List.mem_map.mpr ⟨(q, qinfo), hqmem, rfl⟩
  obtain ⟨v, hv⟩ := alGet_isSome_of_mem_keys pkgEq Pkg.pid pkgEq_iff st.1 q
    ⟨q, hkeys ▸ hqkey, rfl⟩
  have hvd : v.depth = d := by
    have h3 := hde q
    unfold lookInfo at h3
    rw [hv, hq0] at h3
    simpa [hqd] using h3
  have hvq : v = qinfo := by
    have h3 := (hent q v hv).2.2 hvd
    have h4 := h3.1 (List.mem_map.mpr ⟨q, List.mem_cons_self _ _, rfl⟩)
    rw [hq0] at h4
    exact (Option.some_inj.mp h4).symm
  have hql : lookInfo st.1 q = qinfo := by
    unfold lookInfo; rw [hv, hvq]; rfl
  -- parents of q are good in the current map
  have hgood : ∀ pm ∈ (alGet pkgEq tbl q).getD ([] : List (Pkg × Marker)),
      GoodInfo (lookInfo st.1 pm.1) := by
    intro pm hpm
    rcases cmAcy_parents tbl pkgs0 st.1 q hacy hge hde pm hpm with hemp | hb
    · exact Or.inl hemp
    · rw [hq0d] at hb
      cases hvp : alGet pkgEq st.1 pm.1 with
      | none => left; unfold lookInfo; rw [hvp]; rfl
      | some pv =>
          have h0' : (0 : Int) ≤ pv.depth := by
            have := hb.1; unfold lookInfo at this; rw [hvp] at this
            simpa using this
          have hlt' : pv.depth < d := by
            have := hb.2; unfold lookInfo at this; rw [hvp] at this
            simpa using this
          have hcorr := (hent pm.1 pv hvp).1 h0' hlt'
          right
          unfold lookInfo
          rw [hvp]
          exact hcorr.2
  have hcompl : ∀ pm ∈ (alGet pkgEq tbl q).getD ([] : List (Pkg × Marker)),
      (lookInfo st.1 pm.1).groups.isEmpty = false →
      (lookInfo st.1 pm.1).complete := by
    intro pm hpm hne
    rcases hgood pm hpm with hemp | hcomp
    · rw [hemp] at hne; cases hne
    · exact hcomp
  have hself : alGet pkgEq (cmProcessOne tbl st q).1 q =
      some { lookInfo st.1 q with markers := (cmTmFold tbl st.1 st.2 q).1 } := by
    rw [cmProcessOne_eq]
    exact alGet_alPut_same pkgEq Pkg.pid pkgEq_iff st.1 q q _ rfl
  have hflag' : (cmProcessOne tbl st q).2 = false := by
    rw [cmProcessOne_eq]
    exact (cmTmFold_flag tbl st.1 st.2 q hgood).trans hflag
  have hkeys' : alKeys (cmProcessOne tbl st q).1 = alKeys pkgs0 := by
    rw [cmProcessOne_eq]
    show alKeys (alPut pkgEq st.1 q _) = _
    rw [alKeys_alPut_of_mem pkgEq Pkg.pid pkgEq_iff st.1 q _
      ⟨q, hkeys ▸ hqkey, rfl⟩]
    exact hkeys
  have hge' : GroupsEq pkgs0 (cmProcessOne tbl st q).1 := fun p =>
    (cmProcessOne_groups tbl st q p).trans (hge p)
  have hde' : DepthsEq pkgs0 (cmProcessOne tbl st q).1 := fun p =>
    (cmProcessOne_depth tbl st q p).trans (hde p)
  -- the new value satisfies the equation against the new map
  have hpost : ∀ pm ∈ (alGet pkgEq tbl q).getD ([] : List (Pkg × Marker)),
      (lookInfo (cmProcessOne tbl st q).1 pm.1).groups =
        (lookInfo st.1 pm.1).groups ∧
      ((lookInfo st.1 pm.1).groups.isEmpty = false →
        lookInfo (cmProcessOne tbl st q).1 pm.1 = lookInfo st.1 pm.1) := by
    intro pm hpm
    refine ⟨cmProcessOne_groups tbl st q pm.1, ?_⟩
    intro hne
    rcases cmAcy_parents tbl pkgs0 st.1 q hacy hge hde pm hpm with hemp | hb
    · rw [hemp] at hne; cases hne
    · refine cmProcessOne_lookInfo_other tbl st q pm.1 ?_
      intro hpid
      have := hb.2
      rw [hde pm.1, lookInfo_congr pkgs0 pm.1 q hpid, hq0d] at this
      omega
  have hnewmark : (cmTmFold tbl st.1 st.2 q).1 =
      claimMarkersFor (cmProcessOne tbl st q).1 tbl q qinfo.groups := by
    rw [cmTmFold_eq_claim tbl st.1 st.2 q hcompl, hql]
    exact (claimMarkersFor_congr st.1 (cmProcessOne tbl st q).1 tbl q
      qinfo.groups hpost).symm
  have hnewCorr : cmCorr tbl (cmProcessOne tbl st q).1 q
      { lookInfo st.1 q with markers := (cmTmFold tbl st.1 st.2 q).1 } := by
    constructor
    · show (cmTmFold tbl st.1 st.2 q).1 =
        claimMarkersFor (cmProcessOne tbl st q).1 tbl q (lookInfo st.1 q).groups
      rw [hql]
      exact hnewmark
    · show (lookInfo st.1 q).groups.toFinset =
        (alKeys (cmTmFold tbl st.1 st.2 q).1).toFinset
      rw [cmTmFold_keys tbl st.1 st.2 q (h2_at tbl pkgs0 st.1 q h2 hge)]
  refine ⟨hflag', hkeys', hge', hde', ?_⟩
  intro p pv hpv'
  by_cases hpid : p.pid = q.pid
  · rw [alGet_congr pkgEq Pkg.pid pkgEq_iff _ p q hpid, hself] at hpv'
    cases Option.some_inj.mp hpv'
    have hnd : ({ lookInfo st.1 q with
        markers := (cmTmFold tbl st.1 st.2 q).1 } : TInfo).depth = d := by
      show (lookInfo st.1 q).depth = d
      rw [hql]; exact hqd
    refine ⟨?_, ?_, ?_⟩
    · intro _ hlt; rw [hnd] at hlt; omega
    · intro hcase; rw [hnd] at hcase; rcases hcase with h | h <;> omega
    · intro _
      refine ⟨?_, ?_⟩
      · intro hmem; rw [hpid] at hmem; exact absurd hmem hqs
      · intro _
        refine ⟨?_, hnewCorr.2⟩
        rw [hnewCorr.1]
        exact claimMarkersFor_pid_congr _ tbl q p hpid.symm _
  · have hpv : alGet pkgEq st.1 p = some pv := by
      rw [cmProcessOne_eq,
        alGet_alPut_other pkgEq Pkg.pid pkgEq_iff st.1 q p _ hpid] at hpv'
      exact hpv'
    obtain ⟨hc1, hc2, hc3⟩ := hent p pv hpv
    refine ⟨?_, hc2, ?_⟩
    · intro h0 hlt
      exact cmCorr_stable tbl pkgs0 hacy st q d hge hde hq0d p pv hpv
        (le_of_lt hlt) (hc1 h0 hlt)
    · intro hdeq
      refine ⟨?_, ?_⟩
      · intro hmem
        exact (hc3 hdeq).1 (List.map_cons _ _ _ ▸ List.mem_cons_of_mem _ hmem)
      · intro hnmem
        have hnm' : p.pid ∉ (q :: qs).map Pkg.pid := by
          rw [List.map_cons, List.mem_cons]
          rintro (h | h)
          · exact hpid h
          · exact hnmem h
        exact cmCorr_stable tbl pkgs0 hacy st q d hge hde hq0d p pv hpv
          (le_of_eq hdeq) ((hc3 hdeq).2 hnm')

theorem cmInner_fold (tbl : MarkerTbl) (pkgs0 : PkgMap)
    (h2 : CmParentGroupsSub pkgs0 tbl) (hacy : CmAcyclic pkgs0 tbl)
    (hnd0 : (pkgs0.map fun e => e.1.pid).Nodup) (d : Int) (h0d : 0 ≤ d) :
    ∀ (qs : List Pkg) (st : PkgMap × Bool),
      (∀ q ∈ qs, ∃ qinfo, (q, qinfo) ∈ pkgs0 ∧ qinfo.depth = d) →
      (qs.map Pkg.pid).Nodup →
      CmInnerInv tbl pkgs0 d qs st →
      CmInnerInv tbl pkgs0 d [] (qs.foldl (cmProcessOne tbl) st) := by
  intro qs
  induction qs with
  | nil => intro st _ _ hinv; exact hinv
  | cons q qs ih =>
      intro st hq hnd hinv
      rw [List.foldl_cons]
      obtain ⟨qinfo, hqmem, hqd⟩ := hq q (List.mem_cons_self _ _)
      rw [List.map_cons] at hnd
      exact ih _ (fun x hx => hq x (List.mem_cons_of_mem _ hx))
        (List.nodup_cons.mp hnd).2
        (cmInner_step tbl pkgs0 h2 hacy hnd0 d h0d q qs qinfo st hinv hqmem
          hqd (List.nodup_cons.mp hnd).1)

theorem cmInv_to_inner (tbl : MarkerTbl) (pkgs0 : PkgMap) (dN : Nat)
    (st : PkgMap × Bool) (hinv : CmInv tbl pkgs0 (dN : Int) st) :
    CmInnerInv tbl pkgs0 (dN : Int)
      ((pkgs0.filter fun e => e.2.depth == (dN : Int)).map Prod.fst) st := by
  obtain ⟨hf, hk, hg, hd, he⟩ := hinv
  refine ⟨hf, hk, hg, hd, ?_⟩
  intro p pv hpv
  obtain ⟨hc1, hc2⟩ := he p pv hpv
  refine ⟨hc1, ?_, ?_⟩
  · intro hcase
    apply hc2
    rcases hcase with h | h
    · exact Or.inl h
    · exact Or.inr (le_of_lt h)
  · intro hdeq
    refine ⟨fun _ => hc2 (Or.inr (le_of_eq hdeq.symm)), ?_⟩
    intro hnmem
    exfalso
    have h0 : alGet pkgEq pkgs0 p = some pv := hc2 (Or.inr (le_of_eq hdeq.symm))
    obtain ⟨a, hmem, hapid⟩ := alGet_mem pkgEq Pkg.pid pkgEq_iff pkgs0 p pv h0
    apply hnmem
    refine List.mem_map.mpr ⟨a, ?_, hapid⟩
    refine List.mem_map.mpr ⟨(a, pv), List.mem_filter.mpr ⟨hmem, ?_⟩, rfl⟩
    simp [hdeq]

theorem cmInner_to_inv (tbl : MarkerTbl) (pkgs0 : PkgMap) (dN : Nat)
    (st : PkgMap × Bool) (hinv : CmInnerInv tbl pkgs0 (dN : Int) [] st) :
    CmInv tbl pkgs0 ((dN : Int) + 1) st := by
  obtain ⟨hf, hk, hg, hd, he⟩ := hinv
  refine ⟨hf, hk, hg, hd, ?_⟩
  intro p pv hpv
  obtain ⟨hc1, hc2, hc3⟩ := he p pv hpv
  constructor
  · intro h0 hlt
    by_cases hdeq : pv.depth = (dN : Int)
    · exact (hc3 hdeq).2 (by simp)
    · exact hc1 h0 (by omega)
  · intro hcase
    apply hc2
    rcases hcase with h | h
    · exact Or.inl h
    · exact Or.inr (by omega)

theorem cmOuter (tbl : MarkerTbl) (pkgs0 : PkgMap)
    (h2 : CmParentGroupsSub pkgs0 tbl) (hacy : CmAcyclic pkgs0 tbl)
    (hnd0 : (pkgs0.map fun e => e.1.pid).Nodup) :
    ∀ n : Nat, CmInv tbl pkgs0 (n : Int)
      ((List.range n).foldl (cmLevel tbl pkgs0) (pkgs0, false)) := by
  intro n
  induction n with
  | zero =>
      refine ⟨rfl, rfl, fun p => rfl, fun p => rfl, ?_⟩
      intro p pv hpv
      refine ⟨?_, fun _ => hpv⟩
      intro h0 hlt
      exact absurd hlt (by omega)
  | succ n ih =>
      rw [List.range_succ, List.foldl_append, List.foldl_cons, List.foldl_nil]
      have hbq : ∀ q ∈ (pkgs0.filter fun e =>
          e.2.depth == (n : Int)).map Prod.fst,
          ∃ qinfo, (q, qinfo) ∈ pkgs0 ∧ qinfo.depth = (n : Int) := by
        intro q hqm
        obtain ⟨e, hef, hfst⟩ := List.mem_map.mp hqm
        obtain ⟨hep, hed⟩ := List.mem_filter.mp hef
        refine ⟨e.2, ?_, by simpa using hed⟩
        rw [← hfst]
        exact hep
      have hbnd : (((pkgs0.filter fun e =>
          e.2.depth == (n : Int)).map Prod.fst).map Pkg.pid).Nodup := by
        rw [List.map_map]
        exact ((List.filter_sublist _).map _).nodup hnd0
      have hstep := cmInner_fold tbl pkgs0 h2 hacy hnd0 (n : Int)
        (by omega) _ _ hbq hbnd
        (cmInv_to_inner tbl pkgs0 n _ ih)
      have hfin := cmInner_to_inv tbl pkgs0 n _ hstep
      have hcast : ((n : Int) + 1) = ((n + 1 : Nat) : Int) := by omega
      rw [hcast] at hfin
      exact hfin

theorem nidBeq_iff (a b : NodeId) : (a == b) = true ↔ a = b := beq_iff_eq

theorem alGet_alPut_cases {α β : Type} (eq : α → α → Bool)
    (l : List (α × β)) (k k' : α) (v v' : β)
    (h : alGet eq (alPut eq l k v) k' = some v') :
    v' = v ∨ alGet eq l k' = some v' := by
  induction l with
  | nil =>
      by_cases hk : eq k' k = true
      · simp [alPut, alGet, hk] at h
        exact Or.inl h.symm
      · simp [alPut, alGet, hk] at h
  | cons e rest ih =>
      by_cases hke : eq k e.1 = true
      · by_cases hk : eq k' e.1 = true
        · simp [alPut, hke, alGet, hk] at h
          exact Or.inl h.symm
        · simp only [alPut, hke, if_true, alGet, hk, ite_false] at h
          exact Or.inr (by simp only [alGet, hk, ite_false]; exact h)
      · by_cases hk : eq k' e.1 = true
        · simp only [alPut, hke, if_false, alGet, hk, ite_true] at h
          exact Or.inr (by simp only [alGet, hk, ite_true]; exact h)
        · simp only [alPut, hke, if_false, alGet, hk, ite_false] at h
          rcases ih h with h1 | h1
          · exact Or.inl h1
          · exact Or.inr (by simp only [alGet, hk, ite_false]; exact h1)

theorem vdFold_init (dm : List (NodeId × Int)) (node : PNode) :
    ∀ (l : List PNode) (a : Int),
      a ≤ l.foldl (fun acc p =>
        let pd := (alGet (· == ·) dm p.nid).getD (-1)
        max acc (if p.package.name ≠ node.package.name then pd else pd - 1))
        a := by
  intro l
  induction l with
  | nil => intro a; exact le_refl a
  | cons x l ih =>
      intro a
      rw [List.foldl_cons]
      refine le_trans ?_ (ih _)
      dsimp only
      exact le_max_left _ _

theorem vdFold_mem (dm : List (NodeId × Int)) (node : PNode) :
    ∀ (l : List PNode) (a : Int), ∀ p ∈ l,
      (if p.package.name ≠ node.package.name then
        (alGet (· == ·) dm p.nid).getD (-1)
      else (alGet (· == ·) dm p.nid).getD (-1) - 1) ≤
      l.foldl (fun acc p =>
        let pd := (alGet (· == ·) dm p.nid).getD (-1)
        max acc (if p.package.name ≠ node.package.name then pd else pd - 1))
        a := by
  intro l
  induction l with
  | nil => intro a p hp; simp at hp
  | cons x l ih =>
      intro a p hp
      rw [List.foldl_cons]
      rcases List.mem_cons.mp hp with rfl | hp
      · refine le_trans ?_ (vdFold_init dm node l _)
        dsimp only
        exact le_max_right _ _
      · exact ih _ p hp

theorem vdFold_bound (dm : List (NodeId × Int)) (node : PNode) :
    ∀ (l : List PNode) (a c : Int), a ≤ c →
      (∀ p ∈ l,
        (if p.package.name ≠ node.package.name then
          (alGet (· == ·) dm p.nid).getD (-1)
        else (alGet (· == ·) dm p.nid).getD (-1) - 1) ≤ c) →
      l.foldl (fun acc p =>
        let pd := (alGet (· == ·) dm p.nid).getD (-1)
        max acc (if p.package.name ≠ node.package.name then pd else pd - 1))
        a ≤ c := by
  intro l
  induction l with
  | nil => intro a c ha _; exact ha
  | cons x l ih =>
      intro a c ha hf
      rw [List.foldl_cons]
      refine ih _ c ?_ (fun y hy => hf y (List.mem_cons_of_mem _ hy))
      dsimp only
      exact max_le ha (hf x (List.mem_cons_self _ _))

theorem visitDepth_ge (parents : List PNode) (dm : List (NodeId × Int))
    (node : PNode) : -1 ≤ visitDepth parents dm node := by
  unfold visitDepth
  have := vdFold_init dm node parents (-2)
  omega

theorem visitDepth_le (parents : List PNode) (dm : List (NodeId × Int))
    (node : PNode) (c : Int) (hc : -1 ≤ c)
    (h : ∀ nid v, alGet (· == ·) dm nid = some v → v ≤ c) :
    visitDepth parents dm node ≤ c + 1 := by
  unfold visitDepth
  have hb := vdFold_bound dm node parents (-2) c (by omega) ?_
  · omega
  · intro p _
    have hpd : (alGet (· == ·) dm p.nid).getD (-1) ≤ c := by
      cases hget : alGet (· == ·) dm p.nid with
      | none => simpa using hc
      | some w => simpa using h p.nid w hget
    by_cases hn : p.package.name ≠ node.package.name
    · simpa [hn] using hpd
    · simp only [hn, if_false]
      omega

theorem visitDepth_pos (parents : List PNode) (dm : List (NodeId × Int))
    (node : PNode) (p : PNode) (hp : p ∈ parents)
    (hname : p.package.name ≠ node.package.name)
    (hdm : ∀ nid v, alGet (· == ·) dm nid = some v → -1 ≤ v) :
    0 ≤ visitDepth parents dm node := by
  unfold visitDepth
  have hm := vdFold_mem dm node parents (-2) p hp
  have hpd : -1 ≤ (alGet (· == ·) dm p.nid).getD (-1) := by
    cases hget : alGet (· == ·) dm p.nid with
    | none => simp
    | some w => simpa using hdm p.nid w hget
  rw [if_pos hname] at hm
  omega

/-- The step of the `node.visit` loop. -/
def vpStep (backEdges : List (NodeId × List PNode))
    (dm : List (NodeId × Int)) (node : PNode) : List (NodeId × Int) :=
  alPut (· == ·) dm node.nid
    (visitDepth ((alGet (· == ·) backEdges node.nid).getD []) dm node)

theorem visitPass_eq (backEdges : List (NodeId × List PNode))
    (topo : List PNode) :
    visitPass backEdges topo = topo.foldl (vpStep backEdges) [] := rfl

theorem vpFold_ge (backEdges : List (NodeId × List PNode)) :
    ∀ (l : List PNode) (dm0 : List (NodeId × Int)),
      (∀ nid v, alGet (· == ·) dm0 nid = some v → -1 ≤ v) →
      ∀ nid v, alGet (· == ·) (l.foldl (vpStep backEdges) dm0) nid = some v →
        -1 ≤ v := by
  intro l
  induction l with
  | nil => intro dm0 h nid v hget; exact h nid v hget
  | cons node l ih =>
      intro dm0 h nid v hget
      rw [List.foldl_cons] at hget
      refine ih _ ?_ nid v hget
      intro nid' v' hget'
      rcases alGet_alPut_cases _ _ _ _ _ _ hget' with rfl | hget''
      · exact visitDepth_ge _ _ _
      · exact h nid' v' hget''

theorem vpFold_le (backEdges : List (NodeId × List PNode)) :
    ∀ (l : List PNode) (dm0 : List (NodeId × Int)) (c : Int), -1 ≤ c →
      (∀ nid v, alGet (· == ·) dm0 nid = some v → v ≤ c) →
      ∀ nid v, alGet (· == ·) (l.foldl (vpStep backEdges) dm0) nid = some v →
        v ≤ c + l.length := by
  intro l
  induction l with
  | nil =>
      intro dm0 c _ h nid v hget
      simpa using h nid v hget
  | cons node l ih =>
      intro dm0 c hc h nid v hget
      rw [List.foldl_cons] at hget
      have hstep : ∀ nid' v',
          alGet (· == ·) (vpStep backEdges dm0 node) nid' = some v' →
          v' ≤ c + 1 := by
        intro nid' v' hget'
        rcases alGet_alPut_cases _ _ _ _ _ _ hget' with rfl | hget''
        · exact visitDepth_le _ _ _ c hc h
        · have := h nid' v' hget''
          omega
      have := ih _ (c + 1) (by omega) hstep nid v hget
      simp only [List.length_cons] at this ⊢
      omega

theorem vpFold_frozen (backEdges : List (NodeId × List PNode)) :
    ∀ (l : List PNode) (dm0 : List (NodeId × Int)) (nid : NodeId),
      nid ∉ l.map PNode.nid →
      alGet (· == ·) (l.foldl (vpStep backEdges) dm0) nid =
        alGet (· == ·) dm0 nid := by
  intro l
  induction l with
  | nil => intro dm0 nid _; rfl
  | cons node l ih =>
      intro dm0 nid hn
      rw [List.map_cons, List.mem_cons] at hn
      push_neg at hn
      rw [List.foldl_cons, ih _ _ hn.2]
      exact alGet_alPut_other (· == ·) id (fun a b => nidBeq_iff a b) dm0
        node.nid nid _ hn.1

/-! ## Claims -/

/-- C9.  Constructing a `PackageNode` with a predecessor but without a
dependency fails with the invalid-state error; with no predecessor the node
gets the empty group-set and `optional = true`; with a predecessor and a
dependency it takes both from that dependency. -/
theorem claim_C9 :
    (∀ (p : Pkg) (ps : List Pkg) (prev : PNode) (m : Option Marker),
        mkPNode p ps (some prev) none m =
          .error "Both previous and dep must be passed") ∧
    (∀ (p : Pkg) (ps : List Pkg) (d : Option Dep) (m : Option Marker),
        ∃ n, mkPNode p ps none d m = .ok n ∧ n.groups = [] ∧
          n.optional = true) ∧
    (∀ (p : Pkg) (ps : List Pkg) (prev : PNode) (d : Dep) (m : Option Marker),
        ∃ n, mkPNode p ps (some prev) (some d) m = .ok n ∧
          n.groups = d.groups ∧ n.optional = d.optional) :=
  ⟨fun _ _ _ _ => rfl,
   fun _ _ _ _ => ⟨_, rfl, rfl, rfl⟩,
   fun _ _ _ _ _ => ⟨_, rfl, rfl, rfl⟩⟩

/-- C10.  A child enumerated from a node that already stores a producing
dependency (every non-root node does) inherits that stored dependency — not
the immediate edge — and with it the group-set and optional flag; only
children of the root (stored dependency `none`) take them from the immediate
dependency; consequently the context propagates unchanged along every DFS
chain below a direct child of the root. -/
theorem claim_C10 :
    (∀ (self : PNode) (d0 : Dep), self.dep = some d0 →
        ∀ c ∈ self.reachable, c.dep = some d0 ∧ c.groups = d0.groups ∧
          c.optional = d0.optional) ∧
    (∀ self : PNode, self.dep = none →
        ∀ c ∈ self.reachable, ∃ d ∈ self.package.requires,
          c.dep = some d ∧ c.groups = d.groups ∧ c.optional = d.optional) ∧
    (∀ (n c : PNode) (d0 : Dep), n.dep = some d0 → n.groups = d0.groups →
        n.optional = d0.optional → Relation.ReflTransGen ReachStep n c →
        c.dep = some d0 ∧ c.groups = d0.groups ∧ c.optional = d0.optional) := by
  refine ⟨reachable_dep_of_some, reachable_dep_of_none, ?_⟩
  intro n c d0 hdep hg ho hchain
  induction hchain with
  | refl => exact ⟨hdep, hg, ho⟩
  | tail _ hstep ih =>
      rcases ih with ⟨ihd, _, _⟩
      exact reachable_dep_of_some _ _ ihd _ hstep

/-- Witness for C10: in the cycle fixture, the DFS child of `a`'s node (the
node for `b`) carries the root's top-level dependency on `a`, with its groups
and optional flag. -/
theorem claim_C10_witness :
    ∃ c, Relation.ReflTransGen ReachStep
        (mkChildNode aCyc pkgsCyc (dpM "a" mWin) mWin) c ∧
      c.package = bCyc ∧ c.dep = some (dpM "a" mWin) ∧
      c.groups = ["main"] ∧ c.optional = false := by
  refine ⟨mkChildNode bCyc pkgsCyc (dpM "a" mWin) mPy8, ?_, by decide,
    ?_, ?_, ?_⟩
  · refine Relation.ReflTransGen.single ?_
    show _ ∈ PNode.reachable _
    decide
  all_goals
    have h := (claim_C10.2.2) (mkChildNode aCyc pkgsCyc (dpM "a" mWin) mWin)
      (mkChildNode bCyc pkgsCyc (dpM "a" mWin) mPy8) (dpM "a" mWin)
      (by decide) (by decide) (by decide)
      (Relation.ReflTransGen.single (show _ ∈ PNode.reachable _ by decide))
    decide

/-- `TblExt` is transitive. -/
theorem tblExt_trans {a b c : MarkerTbl} (h1 : TblExt a b)
    (h2 : TblExt b c) : TblExt a c := by
  intro x p v hv
  rcases h2 x p v hv with h | h
  · exact h1 x p v h
  · exact Or.inr h

/-- A stack of `enter` tasks for genuine edges is well formed. -/
theorem taskWf_map_enter (p : PNode) :
    ∀ l : List PNode, (∀ o ∈ l, o ∈ p.reachable) →
      TaskWf (l.map fun o => .enter p o)
  | [], _ => trivial
  | o :: rest, h => by
      refine ⟨h o (by simp), ?_⟩
      exact taskWf_map_enter p rest fun x hx => h x (by simp [hx])

/-- Concatenation preserves task well-formedness. -/
theorem taskWf_append : ∀ t1 t2 : List DTask, TaskWf t1 → TaskWf t2 →
      TaskWf (t1 ++ t2)
  | [], _, _, h2 => h2
  | .enter p o :: rest, t2, h1, h2 => ⟨h1.1, taskWf_append rest t2 h1.2 h2⟩
  | .leave _ :: rest, t2, h1, h2 => taskWf_append rest t2 h1 h2

/-- The enumerated-children task stack of a node is well formed. -/
theorem taskWf_enters (p : PNode) :
    TaskWf (p.reachable.map fun o => .enter p o) :=
  taskWf_map_enter p p.reachable fun _ h => h

/-- The effect of `dfsRecordEdge` on the marker table: the recorded entry
carries the conditional `without_extras` formula; all other entries are
untouched. -/
theorem tblGet_recordEdge (st : DfsState) (n out : PNode) (c p : Pkg) :
    tblGet (dfsRecordEdge st n out).tbl c p =
      if c.pid = out.package.pid ∧ p.pid = n.package.pid then
        some (if n.package.isRoot then out.marker
              else out.marker.withoutExtras)
      else tblGet st.tbl c p := by
  unfold dfsRecordEdge tblGet
  by_cases hc : c.pid = out.package.pid
  · rw [alGet_alPut_same pkgEq Pkg.pid pkgEq_iff _ _ _ _ hc,
      Option.getD_some]
    by_cases hp : p.pid = n.package.pid
    · rw [alGet_alPut_same pkgEq Pkg.pid pkgEq_iff _ _ _ _ hp]
      simp [hc, hp]
    · rw [alGet_alPut_other pkgEq Pkg.pid pkgEq_iff _ _ _ _ hp]
      simp only [hc, hp, and_false, if_false]
      congr 2
      exact (alGet_congr pkgEq Pkg.pid pkgEq_iff _ _ _ hc).symm
  · rw [alGet_alPut_other pkgEq Pkg.pid pkgEq_iff _ _ _ _ hc]
    simp [hc]

/-- Each `dfsRun` step only extends the marker table with provenanced
entries. -/
theorem dfsRun_tblExt : ∀ (fuel : Nat) (tasks : List DTask) (st st' : DfsState),
    TaskWf tasks → dfsRun fuel tasks st = some st' → TblExt st.tbl st'.tbl
  | _, [], st, st', _, h => by
      simp only [dfsRun, Option.some.injEq] at h
      subst h
      exact fun c p v hv => Or.inl hv
  | 0, _ :: _, _, _, _, h => by simp [dfsRun] at h
  | f + 1, .enter parent out :: rest, st, st', hwf, h => by
      simp only [dfsRun] at h
      have hext1 : TblExt st.tbl (dfsRecordEdge st parent out).tbl := by
        intro c p v hv
        rw [tblGet_recordEdge] at hv
        by_cases hk : c.pid = out.package.pid ∧ p.pid = parent.package.pid
        · rw [if_pos hk] at hv
          exact Or.inr ⟨parent, out, hwf.1, hk.1, hk.2, (Option.some.injEq _ _).mp hv.symm⟩
        · rw [if_neg hk] at hv
          exact Or.inl hv
      by_cases hvis : out.nid ∈ (dfsRecordEdge st parent out).visited
      · rw [if_pos hvis] at h
        exact tblExt_trans hext1 (dfsRun_tblExt f rest _ _ hwf.2 h)
      · rw [if_neg hvis] at h
        have hrec := dfsRun_tblExt f _ _ _
          (taskWf_append _ (.leave out :: rest) (taskWf_enters out) hwf.2) h
        exact tblExt_trans hext1 hrec
  | f + 1, .leave node :: rest, st, st', hwf, h => by
      simp only [dfsRun] at h
      have hrec := dfsRun_tblExt f rest _ _ hwf h
      exact hrec

/-- C4.  (a) Every child enumerated by `reachable` carries the edge marker:
the matching dependency's marker, intersected with the `extra == …`
disjunction over its `in_extras` exactly when the parent is the root and
`in_extras` is non-empty.  (b) Every entry the DFS records in the back-edge
marker table is, for some parent node and enumerated child,
`markers[child.package][parent.package] = edge marker`, with
`without_extras()` applied exactly when the parent's package is not the
root. -/
theorem claim_C4 :
    (∀ (self c : PNode), c ∈ self.reachable →
        ∃ d ∈ self.package.requires,
          c.package.completeNameMatches d ∧ c.package.satisfies d ∧
          c.marker = if self.package.isRoot ∧ d.inExtras ≠ [] then
              d.marker.intersectM (mkExtraDisj d.inExtras)
            else d.marker) ∧
    (∀ (fuel : Nat) (node : PNode) (st st' : DfsState),
        dfsVisit fuel node st = some st' → TblExt st.tbl st'.tbl) := by
  constructor
  · intro self c hc
    simp only [PNode.reachable, List.mem_flatMap, List.mem_map,
      List.mem_filter] at hc
    rcases hc with ⟨d, hd, pkg, ⟨hpkg, hsat⟩, hcc⟩
    subst hcc
    rw [Bool.and_eq_true] at hsat
    refine ⟨d, hd, hsat.1, hsat.2, ?_⟩
    simp only [mkChildNode]
    by_cases hr : self.package.isRoot
    · by_cases he : d.inExtras = []
      · simp [hr, he]
      · have : d.inExtras.isEmpty = false := by
          cases hx : d.inExtras with
          | nil => exact absurd hx he
          | cons a l => simp [List.isEmpty]
        simp [hr, he, this]
    · simp [hr]
  · intro fuel node st st' h
    unfold dfsVisit at h
    by_cases hvis : node.nid ∈ st.visited
    · rw [if_pos hvis] at h
      cases h
      exact fun c p v hv => Or.inl hv
    · rw [if_neg hvis] at h
      have hrec := dfsRun_tblExt fuel _ _ _
        (taskWf_append _ [.leave node] (taskWf_enters node) True.intro) h
      exact hrec

/-- Witness for C4: in the cycle fixture the DFS records
`markers[b][root] = 'sys_platform == "linux"'`, and that entry has edge
provenance. -/
theorem claim_C4_witness :
    ∃ st', dfsVisit 20 srcCyc ⟨[], [], [], []⟩ = some st' ∧
      tblGet st'.tbl bCyc rootCyc = some mLin ∧ ProvEdge bCyc rootCyc mLin := by
  refine ⟨_, rfl, rfl, ?_⟩
  have h := claim_C4.2 20 srcCyc ⟨[], [], [], []⟩ _ rfl bCyc rootCyc mLin rfl
  rcases h with h | h
  · exact absurd h (by simp [tblGet, alGet])
  · exact h

/-- Writing back the value already stored at an index is the identity. -/
theorem list_set_self {α : Type} : ∀ (l : List α) (i : Nat) (d : α),
    l[i]? = some d → l.set i d = l
  | [], i, d, h => by simp at h
  | a :: t, 0, d, h => by
      simp only [List.getElem?_cons_zero, Option.some.injEq] at h
      simp [List.set, h]
  | a :: t, i + 1, d, h => by
      simp only [List.getElem?_cons_succ] at h
      simp only [List.set]
      rw [list_set_self t i d h]

/-- C2 counterexample: in the folding fixture the feature's `bar` dependency
(marker `py >= 3.9`) is *not* added next to the base's `bar` entry (marker
`py >= 3.8`); instead the base is left with a single `bar` entry whose marker
has been overwritten with the feature's marker, so the two entries do not
both survive. -/
theorem claim_C2_counterexample :
    ∃ out, aggregateSolvedPackages 60 rootFold pkgsFold = some out ∧
      (out.map fun e => (e.1.name, e.1.requires.map fun d =>
        (d.name, d.marker))) =
        [("rootfold", [("foo", mWin), ("foo", mLin)]),
         ("foo", [("bar", mPy9)]), ("bar", [])] ∧
      ((foldFeatures pkgsFold)[1]?.getD default).requires.length = 1 :=
  ⟨_, rfl, rfl, rfl⟩

/-- C2 as amended: a feature dependency is folded into the base as follows —
it is dropped when its name is the base's own name; it is appended exactly
when no existing dependency compares equal under dependency equality (which
ignores the marker); and when an equal dependency exists, no entry is added:
the first equal entry's marker is overwritten with the feature dependency's
marker (a no-op if they already agree). -/
theorem claim_C2_amended :
    (∀ (b : Pkg) (dep : Dep), b.name = dep.name → foldDepInto b dep = b) ∧
    (∀ (b : Pkg) (dep : Dep), b.name ≠ dep.name →
        b.requires.findIdx? (fun d => d.eqv dep) = none →
        (foldDepInto b dep).requires = b.requires ++ [dep]) ∧
    (∀ (b : Pkg) (dep : Dep) (i : Nat) (d : Dep), b.name ≠ dep.name →
        b.requires.findIdx? (fun d => d.eqv dep) = some i →
        b.requires[i]? = some d →
        (foldDepInto b dep).requires =
          b.requires.set i { d with marker := dep.marker }) := by
  refine ⟨?_, ?_, ?_⟩
  · intro b dep h
    simp [foldDepInto, h]
  · intro b dep hne hfind
    have hb : (b.name == dep.name) = false := by
      simp [hne]
    simp [foldDepInto, hb, hfind]
  · intro b dep i d hne hfind hget
    have hb : (b.name == dep.name) = false := by
      simp [hne]
    simp only [foldDepInto, hb, Bool.false_eq_true, if_false, hfind, hget]
    by_cases hm : d.marker = dep.marker
    · simp only [hm, ne_eq, not_true_eq_false, if_false]
      have : ({ d with marker := dep.marker } : Dep) = d := by
        cases d; simp_all
      rw [this, list_set_self _ _ _ hget]
    · simp [hm]

/-- Witness for the amended C2: folding the feature's `bar (py >= 3.9)` into
the base `foo` overwrites the marker of the existing `bar (py >= 3.8)`
entry in place. -/
theorem claim_C2_amended_witness :
    fooBase.name ≠ (dpM "bar" mPy9).name ∧
    fooBase.requires.findIdx? (fun d => d.eqv (dpM "bar" mPy9)) = some 0 ∧
    fooBase.requires[0]? = some (dpM "bar" mPy8) ∧
    (foldDepInto fooBase (dpM "bar" mPy9)).requires =
      fooBase.requires.set 0 { dpM "bar" mPy8 with marker := mPy9 } := by
  refine ⟨by decide, rfl, rfl, ?_⟩
  exact claim_C2_amended.2.2 fooBase (dpM "bar" mPy9) 0 (dpM "bar" mPy8)
    (by decide) rfl rfl

/-- `findIdx?` returning an index yields an element satisfying the
predicate. -/
theorem findIdx?_some_spec {α : Type} (p : α → Bool) :
    ∀ (l : List α) (i : Nat), l.findIdx? p = some i →
      ∃ d, l[i]? = some d ∧ p d = true
  | [], i, h => by simp at h
  | x :: xs, i, h => by
      rw [List.findIdx?_cons] at h
      by_cases hp : p x = true
      · rw [if_pos hp] at h
        cases h
        exact ⟨x, by simp, hp⟩
      · rw [if_neg hp, List.findIdx?_succ] at h
        rcases Option.map_eq_some'.mp h with ⟨j, hj, hji⟩
        rcases findIdx?_some_spec p xs j hj with ⟨d, hd, hpd⟩
        refine ⟨d, ?_, hpd⟩
        rw [← hji]
        simpa using hd

/-- `findIdx?` finds an index when some element satisfies the predicate. -/
theorem findIdx?_some_of_exists {α : Type} (p : α → Bool)
    (l : List α) (h : ∃ x ∈ l, p x = true) : ∃ i, l.findIdx? p = some i := by
  have hany : l.any p = true := List.any_eq_true.mpr h
  have := (List.findIdx?_isSome : (l.findIdx? p).isSome = l.any p)
  rw [hany] at this
  exact Option.isSome_iff_exists.mp this

/-- Folding one dependency never changes a package's identity. -/
theorem foldDepInto_pid (b : Pkg) (dep : Dep) :
    (foldDepInto b dep).pid = b.pid := by
  unfold foldDepInto
  split
  · rfl
  · split
    · rfl
    · split
      · rfl
      · split
        · rfl
        · rfl

/-- Folding a feature variant never changes a package's identity. -/
theorem foldFeatureInto_pid (feature : Pkg) :
    ∀ b : Pkg, (foldFeatureInto b feature).pid = b.pid := by
  unfold foldFeatureInto
  generalize feature.requires = deps
  induction deps with
  | nil => intro b; rfl
  | cons d rest ih =>
      intro b
      simp only [List.foldl_cons]
      rw [ih (foldDepInto b d), foldDepInto_pid]

/-- Setting an index to an identity-preserving replacement keeps a mapped
view of the list. -/
theorem list_map_set_of {α γ : Type} (f : α → γ) :
    ∀ (l : List α) (i : Nat) (v : α),
      (∀ d, l[i]? = some d → f v = f d) → (l.set i v).map f = l.map f
  | [], _, _, _ => rfl
  | a :: t, 0, v, h => by
      simp only [List.set, List.map_cons]
      rw [h a (by simp)]
  | a :: t, i + 1, v, h => by
      simp only [List.set, List.map_cons]
      rw [list_map_set_of f t i v (fun d hd => h d (by simpa using hd))]

/-- A `foldl` preserves any invariant its step preserves. -/
theorem foldl_inv {σ ι : Type} (Inv : σ → Prop) (g : σ → ι → σ)
    (hg : ∀ st i, Inv st → Inv (g st i)) :
    ∀ (l : List ι) (st : σ), Inv st → Inv (l.foldl g st)
  | [], _, h => h
  | x :: xs, st, h => foldl_inv Inv g hg xs (g st x) (hg st x h)

/-- The inner fold step never changes the per-position identities. -/
theorem foldStepBase_map_pid (package : Pkg) (st2 : List Pkg) (j : Nat) :
    (foldStepBase package st2 j).map Pkg.pid = st2.map Pkg.pid := by
  unfold foldStepBase
  dsimp only
  split
  · refine list_map_set_of Pkg.pid st2 j _ ?_
    intro d hd
    rw [foldFeatureInto_pid]
    simp [hd]
  · rfl

/-- Feature folding permutes no entries and changes no identities: the
per-position package identities are untouched. -/
theorem foldFeatures_map_pid (ps : List Pkg) :
    (foldFeatures ps).map Pkg.pid = ps.map Pkg.pid := by
  unfold foldFeatures
  refine foldl_inv (fun st => st.map Pkg.pid = ps.map Pkg.pid)
    foldStepOuter ?_ _ _ rfl
  intro st i hst
  unfold foldStepOuter
  dsimp only
  split
  · unfold foldIntoBases
    refine foldl_inv (fun st2 => st2.map Pkg.pid = ps.map Pkg.pid)
      (foldStepBase _) ?_ _ _ hst
    intro st2 j hst2
    rw [foldStepBase_map_pid]
    exact hst2
  · exact hst

/-- All keys accumulated by the solved-dict loop have empty features. -/
theorem buildSolvedGo_keys_features (results : PkgMap) :
    ∀ (ps : List Pkg) (acc out : List (Pkg × TInfo)),
      buildSolvedGo results ps acc = some out →
      (∀ k ∈ alKeys acc, k.features = []) →
      ∀ k ∈ alKeys out, k.features = []
  | [], acc, out, h, hacc => by
      cases h
      exact hacc
  | p :: rest, acc, out, h, hacc => by
      rw [buildSolvedGo] at h
      by_cases hf : p.features.isEmpty = true
      · rw [if_pos hf] at h
        cases hg : alGet pkgEq results p with
        | none => rw [hg] at h; cases h
        | some info =>
            rw [hg] at h
            refine buildSolvedGo_keys_features results rest _ out h ?_
            intro k hk
            rcases alKeys_alPut_sub pkgEq acc p info k hk with h' | h'
            · exact hacc k h'
            · subst h'
              exact List.isEmpty_iff.mp hf
      · rw [if_neg hf] at h
        exact buildSolvedGo_keys_features results rest acc out h hacc

/-- Keys already accumulated by the solved-dict loop persist (up to
identity) into the final dict. -/
theorem buildSolvedGo_keys_persist (results : PkgMap) :
    ∀ (ps : List Pkg) (acc out : List (Pkg × TInfo)),
      buildSolvedGo results ps acc = some out →
      ∀ a ∈ alKeys acc, ∃ q ∈ alKeys out, q.pid = a.pid
  | [], acc, out, h => by
      cases h
      exact fun a ha => ⟨a, ha, rfl⟩
  | p :: rest, acc, out, h => by
      rw [buildSolvedGo] at h
      by_cases hf : p.features.isEmpty = true
      · rw [if_pos hf] at h
        cases hg : alGet pkgEq results p with
        | none => rw [hg] at h; cases h
        | some info =>
            rw [hg] at h
            intro a ha
            exact buildSolvedGo_keys_persist results rest _ out h a
              (alKeys_alPut_sup pkgEq acc p info a ha)
      · rw [if_neg hf] at h
        exact buildSolvedGo_keys_persist results rest acc out h

/-- Every featureless package scanned by the solved-dict loop ends up among
the final keys. -/
theorem buildSolvedGo_keys_mem (results : PkgMap) :
    ∀ (ps : List Pkg) (acc out : List (Pkg × TInfo)),
      buildSolvedGo results ps acc = some out →
      ∀ p ∈ ps, p.features = [] → ∃ q ∈ alKeys out, q.pid = p.pid
  | [], acc, out, h => by intro p hp; exact absurd hp (List.not_mem_nil p)
  | p0 :: rest, acc, out, h => by
      rw [buildSolvedGo] at h
      intro p hp hpf
      rcases List.mem_cons.mp hp with rfl | hp'
      · have hf : p.features.isEmpty = true := by simp [hpf]
        rw [if_pos hf] at h
        cases hg : alGet pkgEq results p with
        | none => rw [hg] at h; cases h
        | some info =>
            rw [hg] at h
            rcases alKeys_alPut_self pkgEq Pkg.pid pkgEq_iff acc p info with
              ⟨a, ha, hak⟩
            rcases buildSolvedGo_keys_persist results rest _ out h a ha with
              ⟨q, hq, hqa⟩
            exact ⟨q, hq, hqa.trans hak⟩
      · by_cases hf : p0.features.isEmpty = true
        · rw [if_pos hf] at h
          cases hg : alGet pkgEq results p0 with
          | none => rw [hg] at h; cases h
          | some info =>
              rw [hg] at h
              exact buildSolvedGo_keys_mem results rest _ out h p hp' hpf
        · rw [if_neg hf] at h
          exact buildSolvedGo_keys_mem results rest acc out h p hp' hpf

/-- A successful aggregation factors through `buildSolved` on the folded
package list. -/
theorem aggregateSolved_factor (fuel : Nat) (root : Pkg) (ps : List Pkg)
    (out : List (Pkg × TInfo))
    (h : aggregateSolvedPackages fuel root ps = some out) :
    ∃ final, buildSolved (foldFeatures ps) final = some out := by
  unfold aggregateSolvedPackages at h
  rw [show (mkPNode root ps none none none).toOption = some
    { package := root, packages := ps, dep := none, marker := .any,
      depth := -1, groups := [], optional := true } from rfl] at h
  dsimp only at h
  cases hdfs : depthFirstSearch fuel
      { package := root, packages := ps, dep := none, marker := .any,
        depth := -1, groups := [], optional := true } with
  | none => rw [hdfs] at h; cases h
  | some ct =>
      rw [hdfs] at h
      cases hcm : calculateMarkers fuel (ct.1.map aggregatePackageNodes)
          ct.2 with
      | none =>
          dsimp only at h
          rw [hcm] at h
          cases h
      | some final =>
          dsimp only at h
          rw [hcm] at h
          exact ⟨final, h⟩

/-- C7 counterexample: in the self-dependency fixture the folded base
`foo2` still lists itself among its requires (the pre-existing self
dependency survives), and the marker overwrite turns the two distinct
`bar2` entries into two fully equal entries — both parts of the claimed
invariant fail. -/
theorem claim_C7_counterexample :
    ∃ out foo', aggregateSolvedPackages 80 rootSelf pkgsSelf = some out ∧
      (alKeys out)[1]? = some foo' ∧
      foo'.requires = [dpM "foo2" mWin, dpM "bar2" mPy9, dpM "bar2" mPy9] ∧
      (foo'.requires.any fun d => d.name == foo'.name) = true ∧
      foo'.requires[1]? = foo'.requires[2]? :=
  ⟨_, _, rfl, rfl, rfl, rfl, rfl⟩

/-- C7 as amended: (i) the returned mapping's keys are exactly (up to
package identity) the featureless packages of the input list; (ii) folding
never *adds* a dependency whose name is the base's own name — any such entry
was already present; (iii) a dependency equal (marker-blind) to an existing
entry is never appended, so the requires list does not grow. -/
theorem claim_C7_amended :
    (∀ (fuel : Nat) (root : Pkg) (ps : List Pkg) (out : List (Pkg × TInfo)),
        aggregateSolvedPackages fuel root ps = some out →
        (∀ p ∈ alKeys out, p.features = []) ∧
        (∀ p ∈ ps, p.features = [] → ∃ q ∈ alKeys out, q.pid = p.pid)) ∧
    (∀ (b : Pkg) (dep : Dep), ∀ d' ∈ (foldDepInto b dep).requires,
        d'.name = b.name → d' ∈ b.requires) ∧
    (∀ (b : Pkg) (dep : Dep), (∃ d ∈ b.requires, d.eqv dep = true) →
        (foldDepInto b dep).requires.length = b.requires.length) := by
  refine ⟨?_, ?_, ?_⟩
  · intro fuel root ps out h
    rcases aggregateSolved_factor fuel root ps out h with ⟨final, hbs⟩
    unfold buildSolved at hbs
    constructor
    · exact buildSolvedGo_keys_features final (foldFeatures ps) [] out hbs
        (by intro k hk; exact absurd hk (List.not_mem_nil _))
    · intro p hp hpf
      have hpid : p.pid ∈ (foldFeatures ps).map Pkg.pid := by
        rw [foldFeatures_map_pid]
        exact List.mem_map_of_mem Pkg.pid hp
      rcases List.mem_map.mp hpid with ⟨p', hp', hp'pid⟩
      have hp'f : p'.features = [] := by
        have : p'.features = p.features := congrArg (fun x => x.2.1) hp'pid
        rw [this, hpf]
      exact hp'pid ▸ buildSolvedGo_keys_mem final (foldFeatures ps) [] out
        hbs p' hp' hp'f
  · intro b dep d' hd' hname
    unfold foldDepInto at hd'
    by_cases hb : (b.name == dep.name) = true
    · rw [if_pos hb] at hd'
      exact hd'
    · rw [if_neg hb] at hd'
      have hbne : dep.name ≠ b.name := fun hc => hb (by simp [hc])
      cases hfind : b.requires.findIdx? (fun d => d.eqv dep) with
      | none =>
          rw [hfind] at hd'
          dsimp only at hd'
          rcases List.mem_append.mp hd' with h' | h'
          · exact h'
          · rcases List.mem_singleton.mp h' with rfl
            exact absurd hname hbne
      | some i =>
          rw [hfind] at hd'
          dsimp only at hd'
          rcases findIdx?_some_spec _ _ _ hfind with ⟨d, hget, heqv⟩
          rw [hget] at hd'
          dsimp only at hd'
          have hdname : d.name = dep.name := by
            have := heqv
            unfold Dep.eqv at this
            simp only [Bool.and_eq_true, beq_iff_eq] at this
            exact this.1.1
          by_cases hm : d.marker ≠ dep.marker
          · rw [if_pos hm] at hd'
            dsimp only at hd'
            rcases List.mem_or_eq_of_mem_set hd' with h' | h'
            · exact h'
            · subst h'
              exact absurd (hdname.symm.trans hname) hbne
          · rw [if_neg hm] at hd'
            exact hd'
  · intro b dep hex
    unfold foldDepInto
    by_cases hb : (b.name == dep.name) = true
    · rw [if_pos hb]
    · rw [if_neg hb]
      rcases findIdx?_some_of_exists _ _ hex with ⟨i, hfind⟩
      rw [hfind]
      dsimp only
      rcases findIdx?_some_spec _ _ _ hfind with ⟨d, hget, _⟩
      rw [hget]
      dsimp only
      by_cases hm : d.marker ≠ dep.marker
      · rw [if_pos hm]
        exact List.length_set _ _ _
      · rw [if_neg hm]

/-- Witness for the amended C7 on the self-dependency fixture. -/
theorem claim_C7_amended_witness :
    ∃ out, aggregateSolvedPackages 80 rootSelf pkgsSelf = some out ∧
      (∀ p ∈ alKeys out, p.features = []) ∧
      (∃ q ∈ alKeys out, q.pid = fooSelfP.pid) := by
  refine ⟨_, rfl, ?_, ?_⟩
  · exact (claim_C7_amended.1 80 rootSelf pkgsSelf _ rfl).1
  · exact (claim_C7_amended.1 80 rootSelf pkgsSelf _ rfl).2 fooSelfP
      (by decide) rfl

/-- Updating a key that occurs exactly once, in the middle, rewrites that
occurrence in place. -/
theorem alPut_middle (g : String) (v m : Marker) :
    ∀ (C rest : List (String × Marker)), (∀ a ∈ alKeys C, a ≠ g) →
      alPut (· == ·) (C ++ (g, m) :: rest) g v = C ++ (g, v) :: rest
  | [], rest, _ => by simp [alPut]
  | e :: C, rest, h => by
      have he : ¬ (g == e.1) = true := by
        simp only [beq_iff_eq]
        exact fun hc => h e.1 (by simp [alKeys]) hc.symm
      show alPut (· == ·) (e :: (C ++ (g, m) :: rest)) g v =
        e :: (C ++ (g, v) :: rest)
      rw [show alPut (· == ·) (e :: (C ++ (g, m) :: rest)) g v =
        e :: alPut (· == ·) (C ++ (g, m) :: rest) g v from by
          simp [alPut, he]]
      rw [alPut_middle g v m C rest fun a ha => h a (by
        simp only [alKeys, List.map_cons, List.mem_cons]; exact Or.inr ha)]

/-- The step function of `promoteOne`, with a memo set known to contain only
covered markers, behaves like the memo-free promotion. -/
theorem promoteOne_foldEq (covers : Marker → Bool) :
    ∀ (l : List (String × Marker)) (A : List (String × Marker))
      (seen : List Marker), (∀ m ∈ seen, covers m = true) →
      (l.foldl (fun acc gm =>
          if gm.2 ∈ acc.2 || covers gm.2 then
            (alPut (· == ·) acc.1 gm.1 Marker.any,
             if gm.2 ∈ acc.2 then acc.2 else acc.2 ++ [gm.2])
          else acc) (A, seen)).1 =
        l.foldl (fun acc gm =>
          if covers gm.2 then alPut (· == ·) acc gm.1 Marker.any else acc)
          A ∧
      ∀ m ∈ (l.foldl (fun acc gm =>
          if gm.2 ∈ acc.2 || covers gm.2 then
            (alPut (· == ·) acc.1 gm.1 Marker.any,
             if gm.2 ∈ acc.2 then acc.2 else acc.2 ++ [gm.2])
          else acc) (A, seen)).2, covers m = true
  | [], A, seen, hs => ⟨rfl, hs⟩
  | gm :: l, A, seen, hs => by
      simp only [List.foldl_cons]
      by_cases hc : covers gm.2 = true
      · have hcond : (gm.2 ∈ seen || covers gm.2) = true := by simp [hc]
        rw [if_pos hcond, if_pos hc]
        refine promoteOne_foldEq covers l _ _ ?_
        by_cases hmem : gm.2 ∈ seen
        · rw [if_pos hmem]; exact hs
        · rw [if_neg hmem]
          intro m hm
          rcases List.mem_append.mp hm with h | h
          · exact hs m h
          · rw [List.mem_singleton.mp h]; exact hc
      · have hmem : ¬ gm.2 ∈ seen := fun hm => hc (hs gm.2 hm)
        have hcond : ¬ (gm.2 ∈ seen || covers gm.2) = true := by
          simp [hmem, hc]
        rw [if_neg hcond, if_neg hc]
        exact promoteOne_foldEq covers l A seen hs

/-- The memo-free promotion fold over a dict with duplicate-free keys is the
pointwise promotion. -/
theorem promoteFold_split (covers : Marker → Bool) :
    ∀ (l C : List (String × Marker)), (alKeys (C ++ l)).Nodup →
      (l.foldl (fun acc gm =>
          if covers gm.2 then alPut (· == ·) acc gm.1 Marker.any else acc)
        (C ++ l)) =
        C ++ l.map fun gm => (gm.1, if covers gm.2 then Marker.any else gm.2)
  | [], C, _ => by simp
  | gm :: l, C, hnd => by
      simp only [List.foldl_cons]
      have hgC : ∀ a ∈ alKeys C, a ≠ gm.1 := by
        intro a ha hag
        have : (alKeys (C ++ gm :: l)) =
            alKeys C ++ gm.1 :: alKeys l := by
          simp [alKeys]
        rw [this] at hnd
        rcases List.nodup_append.mp hnd with ⟨_, _, hdisj⟩
        exact hdisj ha (by simp [hag])
      have hstep : (if covers gm.2 then
          alPut (· == ·) (C ++ gm :: l) gm.1 Marker.any
          else C ++ gm :: l) =
          (C ++ [(gm.1, if covers gm.2 then Marker.any else gm.2)]) ++ l := by
        by_cases hc : covers gm.2 = true
        · rw [if_pos hc, if_pos hc,
            show (C ++ gm :: l) = C ++ (gm.1, gm.2) :: l from rfl,
            alPut_middle gm.1 Marker.any gm.2 C l hgC]
          simp
        · rw [if_neg hc, if_neg hc]
          simp
      rw [hstep]
      have hnd' : (alKeys ((C ++ [(gm.1,
          if covers gm.2 then Marker.any else gm.2)]) ++ l)).Nodup := by
        have : alKeys ((C ++ [(gm.1,
            if covers gm.2 then Marker.any else gm.2)]) ++ l) =
            alKeys (C ++ gm :: l) := by
          simp [alKeys]
        rw [this]
        exact hnd
      rw [promoteFold_split covers l
        (C ++ [(gm.1, if covers gm.2 then Marker.any else gm.2)]) hnd']
      simp

/-- `promoteOne` with a sound memo promotes pointwise and keeps the memo
sound. -/
theorem promoteOne_spec (covers : Marker → Bool)
    (markers : List (String × Marker)) (seen : List Marker)
    (hs : ∀ m ∈ seen, covers m = true)
    (hnd : (alKeys markers).Nodup) :
    (promoteOne covers seen markers).1 = promoteMap covers markers ∧
    ∀ m ∈ (promoteOne covers seen markers).2, covers m = true := by
  have h := promoteOne_foldEq covers markers markers seen hs
  refine ⟨?_, h.2⟩
  rw [show promoteOne covers seen markers =
    markers.foldl (fun acc gm =>
      if gm.2 ∈ acc.2 || covers gm.2 then
        (alPut (· == ·) acc.1 gm.1 Marker.any,
         if gm.2 ∈ acc.2 then acc.2 else acc.2 ++ [gm.2])
      else acc) (markers, seen) from rfl, h.1]
  have := promoteFold_split covers markers [] (by simpa using hnd)
  simpa [promoteMap] using this

/-- C6 as amended: the promotion pass of `_solve_in_compatibility_mode`
replaces a group marker by `AnyMarker` exactly when the promotion test
(`covers`, instantiated by the source with "mentions only `python_version`
and its python constraint allows all of the project's", the model of which
is `pyCovers`) holds of that marker, and changes nothing else; the memoized
`equivalent_markers` set is semantically transparent.  No other
simplification against the interpreter constraint is applied. -/
theorem claim_C6_amended (covers : Marker → Bool) (pkgs : PkgMap)
    (h : ∀ e ∈ pkgs, (alKeys e.2.markers).Nodup) :
    promoteMarkers covers pkgs = pkgs.map fun e =>
      (e.1, { e.2 with markers := promoteMap covers e.2.markers }) := by
  unfold promoteMarkers
  suffices hgen : ∀ (l : List (Pkg × TInfo)) (acc : PkgMap)
      (seen : List Marker), (∀ m ∈ seen, covers m = true) →
      (∀ e ∈ l, (alKeys e.2.markers).Nodup) →
      (l.foldl (fun (st : PkgMap × List Marker) e =>
        let r := promoteOne covers st.2 e.2.markers
        (st.1 ++ [(e.1, { e.2 with markers := r.1 })], r.2)) (acc, seen)).1 =
        acc ++ l.map (fun e =>
          (e.1, { e.2 with markers := promoteMap covers e.2.markers })) by
    simpa using hgen pkgs [] [] (by intro m hm; cases hm) h
  intro l
  induction l with
  | nil => intro acc seen _ _; simp
  | cons e rest ih =>
      intro acc seen hs hnd
      simp only [List.foldl_cons]
      rcases promoteOne_spec covers e.2.markers seen hs
        (hnd e (by simp)) with ⟨h1, h2⟩
      rw [show (promoteOne covers seen e.2.markers) =
        ((promoteOne covers seen e.2.markers).1,
         (promoteOne covers seen e.2.markers).2) from rfl]
      dsimp only
      rw [h1, ih _ _ h2 (fun x hx => hnd x (by simp [hx]))]
      simp

/-- Witness for the amended C6 at the concrete fixture and the source's
concrete promotion test. -/
theorem claim_C6_amended_witness :
    promoteMarkers (pyCovers ⟨8, none⟩) mapC6 = mapC6.map fun e =>
      (e.1, { e.2 with markers := promoteMap (pyCovers ⟨8, none⟩) e.2.markers }) :=
  claim_C6_amended (pyCovers ⟨8, none⟩) mapC6 (by decide)

/-- C6 counterexample: with a project constraint `python_version >= "3.8"`,
the final marker `python_version >= "3.6" and sys_platform == "linux"` is
returned untouched by the pass, although the spec-modelled §4.H simplifier
would reduce it (its python clause is subsumed); hence final markers are
*not* simplified against the project's interpreter constraint. -/
theorem claim_C6_counterexample :
    (alGet pkgEq (promoteMarkers (pyCovers ⟨8, none⟩) mapC6) pkgC6).map
        (fun i => alGet (· == ·) i.markers "main") = some (some mC6) ∧
    (reduceByPy ⟨8, none⟩ mC6 == mC6) = false :=
  ⟨rfl, rfl⟩

/-- A nested fold over a two-level structure is the fold over the
flattening. -/
theorem foldl_flatMap {α β γ : Type} (f : β → List γ) (g : α → γ → α) :
    ∀ (l : List β) (acc : α),
      l.foldl (fun a e => (f e).foldl g a) acc = ((l.flatMap f).foldl g acc)
  | [], _ => rfl
  | e :: l, acc => by
      simp only [List.foldl_cons, List.flatMap_cons, List.foldl_append]
      exact foldl_flatMap f g l _

/-- With duplicate-free keys, updating a present key is a pointwise map. -/
theorem alPut_eq_map {α β κ : Type} (eq : α → α → Bool) (K : α → κ)
    (hK : ∀ a b, eq a b = true ↔ K a = K b) :
    ∀ (l : List (α × β)) (k : α) (v : β),
      (l.map fun kv => K kv.1).Nodup →
      (∃ a ∈ alKeys l, K a = K k) →
      alPut eq l k v = l.map fun kv => if eq k kv.1 then (kv.1, v) else kv
  | [], k, v, _, hp => by
      rcases hp with ⟨a, ha, _⟩
      exact absurd ha (List.not_mem_nil a)
  | e :: rest, k, v, hnd, hp => by
      by_cases hk : eq k e.1 = true
      · rw [show alPut eq (e :: rest) k v = (e.1, v) :: rest from by
          simp [alPut, hk]]
        simp only [List.map_cons, hk, if_true]
        congr 1
        have : ∀ kv ∈ rest, (if eq k kv.1 then (kv.1, v) else kv) = id kv := by
          intro kv hkv
          have hne : K kv.1 ≠ K k := by
            intro hc
            have h1 := List.nodup_cons.mp hnd
            have h2 : K kv.1 = K e.1 := hc.trans ((hK k e.1).mp hk)
            have h3 : K kv.1 ∈ rest.map (fun kv => K kv.1) :=
              List.mem_map_of_mem _ hkv
            rw [h2] at h3
            exact h1.1 h3
          rw [if_neg (fun hc => hne ((hK k kv.1).mp hc).symm)]
          rfl
        rw [List.map_congr_left this, List.map_id]
      · rw [show alPut eq (e :: rest) k v = e :: alPut eq rest k v from by
          simp [alPut, hk]]
        simp only [List.map_cons, hk, if_false]
        congr 1
        have hp' : ∃ a ∈ alKeys rest, K a = K k := by
          rcases hp with ⟨a, ha, hak⟩
          rcases List.mem_cons.mp ha with rfl | ha'
          · exact absurd ((hK k e.1).mpr hak.symm) hk
          · exact ⟨a, ha', hak⟩
        exact alPut_eq_map eq K hK rest k v (List.nodup_cons.mp hnd).2 hp'

/-- A fold over the info record that only rewrites the markers field is the
corresponding fold on the markers field. -/
theorem foldl_tinfo_markers (om : Marker) :
    ∀ (l : List (String × Marker)) (t : TInfo),
      l.foldl (fun pinf gm =>
        { depth := pinf.depth, groups := pinf.groups,
          markers := alPut (· == ·) pinf.markers gm.1
            (((alGet (· == ·) pinf.markers gm.1).getD Marker.empty).unionM
              (om.intersectM gm.2)) }) t =
      { depth := t.depth, groups := t.groups,
        markers := l.foldl (fun ms gm =>
          alPut (· == ·) ms gm.1
            (((alGet (· == ·) ms gm.1).getD Marker.empty).unionM
              (om.intersectM gm.2))) t.markers }
  | [], t => rfl
  | gm :: l, t => by
      simp only [List.foldl_cons]
      rw [foldl_tinfo_markers om l]

/-- C3.  `merge_packages_from_override` computes the override marker as the
intersection over all replacement dependencies of
`dep.marker.without_extras()`; it merges the new results left to right; a
package already in the accumulator gets the maximal depth, the union of the
groups, per-group markers `(old or Empty) ∪ (override ∩ new)`, and the new
package's missing requirements appended to the stored package; a package
new to the accumulator is stored with every group marker replaced by
`override ∩ marker`. -/
theorem claim_C3 :
    (∀ override : Override, overrideMarker override = ovmFlat override) ∧
    (∀ (packages : PkgMap) (ov : Override) (np : Pkg) (ninfo : TInfo)
        (rest : PkgMap),
        mergePackagesFromOverride packages ((np, ninfo) :: rest) ov =
          mergePackagesFromOverride
            (mergePackagesFromOverride packages [(np, ninfo)] ov) rest ov) ∧
    (∀ (packages : PkgMap) (ov : Override) (np : Pkg) (ninfo pinfo : TInfo),
        (packages.map fun kv => kv.1.pid).Nodup →
        alGet pkgEq packages np = some pinfo →
        mergePackagesFromOverride packages [(np, ninfo)] ov =
          packages.map fun kv =>
            if pkgEq kv.1 np then
              (addedReqs np kv.1,
               mergedInfoSpec (overrideMarker ov) pinfo ninfo)
            else kv) ∧
    (∀ (packages : PkgMap) (ov : Override) (np : Pkg) (ninfo : TInfo),
        alGet pkgEq packages np = none →
        mergePackagesFromOverride packages [(np, ninfo)] ov =
          packages ++ [(np, newInfoSpec (overrideMarker ov) ninfo)]) := by
  refine ⟨?_, ?_, ?_, ?_⟩
  · intro override
    unfold overrideMarker ovmFlat
    have hstep : (fun (acc : Marker) (e : Pkg × List (String × Dep)) =>
        e.2.foldl (fun acc2 sd => acc2.intersectM sd.2.marker.withoutExtras)
          acc) = fun acc e =>
        ((e.2.map fun sd => sd.2.marker.withoutExtras).foldl
          Marker.intersectM acc) := by
      funext acc e
      rw [List.foldl_map]
    rw [hstep]
    exact foldl_flatMap _ _ override Marker.any
  · intro packages ov np ninfo rest
    rfl
  · intro packages ov np ninfo pinfo hnd hget
    have hpres : ∃ a ∈ alKeys packages, a.pid = np.pid := by
      rcases alGet_mem pkgEq Pkg.pid pkgEq_iff packages np pinfo hget with
        ⟨a, ha, hak⟩
      exact ⟨a, List.mem_map_of_mem Prod.fst ha, hak⟩
    unfold mergePackagesFromOverride
    simp only [List.foldl_cons, List.foldl_nil]
    rw [hget]
    dsimp only
    rw [alPut_eq_map pkgEq Pkg.pid pkgEq_iff packages np _ hnd hpres]
    rw [List.map_map]
    refine List.map_congr_left ?_
    intro kv hkv
    by_cases hc : pkgEq np kv.1 = true
    · have hc' : pkgEq kv.1 np = true :=
        (pkgEq_iff kv.1 np).mpr ((pkgEq_iff np kv.1).mp hc).symm
      simp only [Function.comp_apply, hc, if_true, hc']
      refine congrArg₂ Prod.mk rfl ?_
      rw [foldl_tinfo_markers (overrideMarker ov) ninfo.markers]
      rfl
    · have hc' : ¬ pkgEq kv.1 np = true := fun h =>
        hc ((pkgEq_iff np kv.1).mpr ((pkgEq_iff kv.1 np).mp h).symm)
      simp [Function.comp_apply, hc, hc']
  · intro packages ov np ninfo hget
    unfold mergePackagesFromOverride
    simp only [List.foldl_cons, List.foldl_nil]
    rw [hget]
    rfl

/-- Witness for C3's conditional parts, on a tiny accumulator. -/
theorem claim_C3_witness :
    ∃ pinfo, alGet pkgEq [(pkgC6, (⟨0, ["main"], [("main", mWin)]⟩ : TInfo))]
        pkgC6 = some pinfo ∧
      ([(pkgC6, (⟨0, ["main"], [("main", mWin)]⟩ : TInfo))].map
        fun kv => kv.1.pid).Nodup ∧
      mergePackagesFromOverride
          [(pkgC6, ⟨0, ["main"], [("main", mWin)]⟩)]
          [(pkgC6, ⟨1, ["main"], [("main", mPy8)]⟩)] [] =
        [(pkgC6, ⟨0, ["main"], [("main", mWin)]⟩)].map fun kv =>
          if pkgEq kv.1 pkgC6 then
            (addedReqs pkgC6 kv.1,
             mergedInfoSpec (overrideMarker []) pinfo
               ⟨1, ["main"], [("main", mPy8)]⟩)
          else kv := by
  refine ⟨_, rfl, by decide, ?_⟩
  exact claim_C3.2.2.1 [(pkgC6, ⟨0, ["main"], [("main", mWin)]⟩)] []
    pkgC6 ⟨1, ["main"], [("main", mPy8)]⟩ _ (by decide) rfl

/-- C8: the claim that `calculate_markers` terminates on every finite
input is refuted: on `badPkgsC8`/`badTblC8` the incomplete-markers flag is
re-set on every pass (the offending parent has depth `-1` and is never
reprocessed), so no fuel suffices. -/
theorem claim_C8_counterexample : cmDiverges badPkgsC8 badTblC8 := by
  intro n
  have h1 : cmPass badTblC8 (cmOrder badPkgsC8) badPkgsC8 = (stFixC8, true) := rfl
  have h2 : cmPass badTblC8 (cmOrder badPkgsC8) stFixC8 = (stFixC8, true) := rfl
  have aux : ∀ m, cmLoop badTblC8 (cmOrder badPkgsC8) m stFixC8 = none := by
    intro m
    induction m with
    | zero => rfl
    | succ k ih =>
        show cmLoop badTblC8 (cmOrder badPkgsC8) (k + 1) stFixC8 = none
        rw [cmLoop, h2]
        exact ih
  cases n with
  | zero => rfl
  | succ k =>
      show cmLoop badTblC8 (cmOrder badPkgsC8) (k + 1) badPkgsC8 = none
      rw [cmLoop, h1]
      exact aux k

/-- C8 (amended): the fixed-point loop stops after at most two passes —
the first pass leaves every recomputed package with markers keyed exactly
by its groups — provided every entry at negative depth has empty groups or
already-complete markers, and every back-edge parent's groups are groups
of the child (both hold for aggregation output). -/
theorem claim_C8_amended (pkgs : PkgMap) (tbl : MarkerTbl)
    (h1 : CmNegGood pkgs) (h2 : CmParentGroupsSub pkgs tbl) :
    ∃ final, calculateMarkers 2 pkgs tbl = some final := by
  have hstart : ∀ p info, alGet pkgEq pkgs p = some info →
      GoodInfo info ∨ p.pid ∈ (cmOrder pkgs).map Pkg.pid := by
    intro p info hget
    obtain ⟨a, hmem, hapid⟩ := alGet_mem pkgEq Pkg.pid pkgEq_iff pkgs p info hget
    by_cases hd : 0 ≤ info.depth
    · refine Or.inr ?_
      rw [List.mem_map]
      exact ⟨a, cmOrder_mem pkgs (a, info) hmem hd, hapid⟩
    · exact h1 (a, info) hmem (show info.depth < 0 by omega) |> Or.inl
  have hge0 : GroupsEq pkgs pkgs := fun p => rfl
  have hmk := cmFold_makesGood tbl pkgs h2 (cmOrder pkgs) (pkgs, false) hge0 hstart
  cases hsnd : ((cmOrder pkgs).foldl (cmProcessOne tbl) (pkgs, false)).2 with
  | false =>
      refine ⟨((cmOrder pkgs).foldl (cmProcessOne tbl) (pkgs, false)).1, ?_⟩
      show cmLoop tbl (cmOrder pkgs) (1 + 1) pkgs = some _
      have hpass : cmPass tbl (cmOrder pkgs) pkgs =
          (((cmOrder pkgs).foldl (cmProcessOne tbl) (pkgs, false)).1, false) :=
        Prod.ext rfl hsnd
      rw [cmLoop, hpass]
  | true =>
      have hpass : cmPass tbl (cmOrder pkgs) pkgs =
          (((cmOrder pkgs).foldl (cmProcessOne tbl) (pkgs, false)).1, true) :=
        Prod.ext rfl hsnd
      have hkeep := cmFold_goodKeep tbl pkgs h2 (cmOrder pkgs)
        (((cmOrder pkgs).foldl (cmProcessOne tbl) (pkgs, false)).1, false)
        hmk.1 hmk.2
      refine ⟨((cmOrder pkgs).foldl (cmProcessOne tbl)
        ((((cmOrder pkgs).foldl (cmProcessOne tbl) (pkgs, false)).1, false))).1, ?_⟩
      show cmLoop tbl (cmOrder pkgs) (1 + 1) pkgs = some _
      have hpass2 : cmPass tbl (cmOrder pkgs)
          (((cmOrder pkgs).foldl (cmProcessOne tbl) (pkgs, false)).1) =
          (((cmOrder pkgs).foldl (cmProcessOne tbl)
            ((((cmOrder pkgs).foldl (cmProcessOne tbl) (pkgs, false)).1, false))).1,
           false) :=
        Prod.ext rfl hkeep.1
      rw [cmLoop, hpass]
      show cmLoop tbl (cmOrder pkgs) (0 + 1)
        (((cmOrder pkgs).foldl (cmProcessOne tbl) (pkgs, false)).1) = some _
      rw [cmLoop, hpass2]

/-- Witness for C8 (amended): a concrete two-package map satisfying the
hypotheses on which the loop completes with fuel 2. -/
theorem claim_C8_amended_witness :
    CmNegGood okPkgsC8 ∧ CmParentGroupsSub okPkgsC8 badTblC8 ∧
    ∃ final, calculateMarkers 2 okPkgsC8 badTblC8 = some final :=
  ⟨by decide, by decide,
    claim_C8_amended okPkgsC8 badTblC8 (by decide) (by decide)⟩


set_option maxHeartbeats 1000000 in
/-- C1: on a dependency cycle the claimed fixed-point equation fails at
convergence: on the cycle fixture the loop exits (fuel 10 suffices) with a
map in which `a`'s marker is not the union over its back-edge parents of
the parents' final markers intersected with the edge markers — the last
pass recomputed `a` from `b`'s previous-pass value. -/
theorem claim_C1_counterexample :
    cmapCyc = cmapCycLit ∧ tblCyc = tblCycLit ∧
    calculateMarkers 10 cmapCycLit tblCycLit = some finCycLit ∧
    alGet pkgEq finCycLit aCyc = some ⟨0, ["main"], [("main", aFinM)]⟩ ∧
    (([("main", aFinM)] : List (String × Marker)) ==
      claimMarkersFor finCycLit tblCycLit aCyc ["main"]) = false :=
  ⟨rfl, rfl, rfl, rfl, rfl⟩


/-- C1 (amended): on acyclic inputs — duplicate-free package identities,
parents' groups contained in the child's, and every parent with groups
strictly below its child in depth — `calculate_markers` exits after the
first pass and the final map satisfies the claimed equation at every
package of non-negative depth: its marker dict equals the union over its
back-edge parents of the parents' final group markers intersected with
the edge markers (the edge marker alone for group-less parents), starting
from `EmptyMarker` per group. -/
theorem claim_C1_amended (pkgs : PkgMap) (tbl : MarkerTbl) (fuel : Nat)
    (hnd : (pkgs.map fun e => e.1.pid).Nodup)
    (h2 : CmParentGroupsSub pkgs tbl)
    (hacy : CmAcyclic pkgs tbl) :
    ∃ final, calculateMarkers (fuel + 1) pkgs tbl = some final ∧
      ∀ p info, alGet pkgEq final p = some info → 0 ≤ info.depth →
        info.markers = claimMarkersFor final tbl p info.groups := by
  have houter := cmOuter tbl pkgs h2 hacy hnd (cmMaxDepth pkgs + 1).toNat
  have hbridge : (List.range (cmMaxDepth pkgs + 1).toNat).foldl
      (cmLevel tbl pkgs) (pkgs, false) = cmPass tbl (cmOrder pkgs) pkgs := by
    unfold cmPass cmOrder cmLevel
    exact foldl_flatMap _ _ _ _
  rw [hbridge] at houter
  obtain ⟨hf, hk, hg, hd, he⟩ := houter
  have hpass : cmPass tbl (cmOrder pkgs) pkgs =
      ((cmPass tbl (cmOrder pkgs) pkgs).1, false) := Prod.ext rfl hf
  refine ⟨(cmPass tbl (cmOrder pkgs) pkgs).1, ?_, ?_⟩
  · show cmLoop tbl (cmOrder pkgs) (fuel + 1) pkgs = some _
    rw [cmLoop, hpass]
  · intro p info hget h0
    obtain ⟨a, hmem, hapid⟩ := alGet_mem pkgEq Pkg.pid pkgEq_iff _ p info hget
    have hpk : a ∈ alKeys pkgs := by
      have : a ∈ alKeys (cmPass tbl (cmOrder pkgs) pkgs).1 :=
        List.mem_map.mpr ⟨(a, info), hmem, rfl⟩
      rw [hk] at this
      exact this
    obtain ⟨v0, hv0⟩ := alGet_isSome_of_mem_keys pkgEq Pkg.pid pkgEq_iff
      pkgs p ⟨a, hpk, hapid⟩
    have hdep : info.depth = v0.depth := by
      have h3 := hd p
      unfold lookInfo at h3
      rw [hget, hv0] at h3
      simpa using h3
    obtain ⟨a', hmem', hapid'⟩ := alGet_mem pkgEq Pkg.pid pkgEq_iff
      pkgs p v0 hv0
    have hmax := cmMaxDepth_ge pkgs (a', v0) hmem'
    have hlt : info.depth < ((cmMaxDepth pkgs + 1).toNat : Int) := by
      simp only at hmax
      omega
    exact ((he p info hget).1 h0 hlt).1

/-- Witness for C1 (amended): a concrete acyclic two-package map on which
the equation holds at the final map. -/
theorem claim_C1_amended_witness :
    ((okPkgsC8.map fun e => e.1.pid).Nodup ∧
      CmParentGroupsSub okPkgsC8 badTblC8 ∧ CmAcyclic okPkgsC8 badTblC8) ∧
    ∃ final, calculateMarkers 1 okPkgsC8 badTblC8 = some final ∧
      ∀ p info, alGet pkgEq final p = some info → 0 ≤ info.depth →
        info.markers = claimMarkersFor final badTblC8 p info.groups :=
  ⟨⟨by decide, by decide, by decide⟩,
    claim_C1_amended okPkgsC8 badTblC8 0 (by decide) (by decide) (by decide)⟩


/-- C5: two refutations.  On the cycle fixture, `a`'s final depth is 0 but
the claimed recurrence evaluated at the final depths gives 2 (`a` was
visited while `b` still had depth `-1`, so the recurrence only holds
against visit-time depths).  On the root-base-name fixture, the returned
non-root package `r` has depth `-1`, not a depth in `[0, |packages|]` (its
only parent is the root, whose shared base name counts as `-1 - 1`). -/
theorem claim_C5_counterexample :
    (dfsVisit 20 srcCyc ⟨[], [], [], []⟩).isSome = true ∧
    aNodeCyc ∈ dfsStCyc.sorted ∧ aNodeCyc.package.isRoot = false ∧
    alGet (· == ·) dmCyc aNodeCyc.nid = some 0 ∧
    visitDepth ((alGet (· == ·) dfsStCyc.backEdges aNodeCyc.nid).getD [])
      dmCyc aNodeCyc = 2 ∧
    cmapR = cmapRLit ∧ rLow.isRoot = false ∧
    alGet pkgEq cmapR rLow = some ⟨-1, ["main"], []⟩ :=
  ⟨rfl, by decide, rfl, rfl, rfl, rfl, rfl, rfl⟩

/-- C5 (amended): about the visit pass over a sorted node list with
duplicate-free node ids (as the DFS produces).  Every node's final depth is
the claimed recurrence evaluated at visit time — against the depths as they
were when the node was visited, with unvisited parents still at `-1` — not
against the final depths; a node with no back-edge parents (the source)
gets `-1`; a node with a back-edge parent of a different base name gets a
non-negative depth (one sharing the root's base name can stay at `-1`);
and all depths lie between `-1` and the number of DFS nodes minus one
(which may exceed the number of packages). -/
theorem claim_C5_amended (backEdges : List (NodeId × List PNode))
    (topo : List PNode) (hnd : (topo.map PNode.nid).Nodup) :
    (∀ node ∈ topo, ∃ pre post, topo = pre ++ node :: post ∧
      alGet (· == ·) (visitPass backEdges topo) node.nid =
        some (visitDepth ((alGet (· == ·) backEdges node.nid).getD [])
          (visitPass backEdges pre) node)) ∧
    (∀ node ∈ topo, (alGet (· == ·) backEdges node.nid).getD [] = [] →
      alGet (· == ·) (visitPass backEdges topo) node.nid = some (-1)) ∧
    (∀ node ∈ topo,
      (∃ p ∈ (alGet (· == ·) backEdges node.nid).getD [],
        p.package.name ≠ node.package.name) →
      ∃ v, alGet (· == ·) (visitPass backEdges topo) node.nid = some v ∧
        0 ≤ v) ∧
    (∀ nid v, alGet (· == ·) (visitPass backEdges topo) nid = some v →
      -1 ≤ v ∧ v ≤ (topo.length : Int) - 1) := by
  have hrec : ∀ node ∈ topo, ∃ pre post, topo = pre ++ node :: post ∧
      alGet (· == ·) (visitPass backEdges topo) node.nid =
        some (visitDepth ((alGet (· == ·) backEdges node.nid).getD [])
          (visitPass backEdges pre) node) := by
    intro node hmem
    obtain ⟨pre, post, heq⟩ := List.append_of_mem hmem
    refine ⟨pre, post, heq, ?_⟩
    have hpost : node.nid ∉ post.map PNode.nid := by
      rw [heq] at hnd
      simp only [List.map_append, List.map_cons] at hnd
      have := (List.nodup_append.mp hnd).2.1
      exact (List.nodup_cons.mp this).1
    rw [visitPass_eq, heq, List.foldl_append, List.foldl_cons,
      vpFold_frozen backEdges post _ _ hpost]
    show alGet (· == ·) (vpStep backEdges (pre.foldl (vpStep backEdges) []) node) node.nid = _
    rw [visitPass_eq]
    exact alGet_alPut_same (· == ·) id (fun a b => nidBeq_iff a b) _ _ _ _ rfl
  have hge : ∀ nid v, alGet (· == ·) (visitPass backEdges topo) nid = some v →
      -1 ≤ v := by
    rw [visitPass_eq]
    exact vpFold_ge backEdges topo [] (by intro nid v h; cases h)
  refine ⟨hrec, ?_, ?_, ?_⟩
  · intro node hmem hpar
    obtain ⟨pre, post, heq, hval⟩ := hrec node hmem
    rw [hpar] at hval
    rw [hval]
    rfl
  · intro node hmem ⟨p, hp, hname⟩
    obtain ⟨pre, post, heq, hval⟩ := hrec node hmem
    refine ⟨_, hval, ?_⟩
    refine visitDepth_pos _ _ node p hp hname ?_
    rw [visitPass_eq]
    exact vpFold_ge backEdges pre [] (by intro nid v h; cases h)
  · intro nid v hget
    refine ⟨hge nid v hget, ?_⟩
    rw [visitPass_eq] at hget
    have := vpFold_le backEdges topo [] (-1) (le_refl _)
      (by intro nid' v' h; cases h) nid v hget
    omega

/-- Witness for C5 (amended): the singleton topo list of the cycle
fixture's source node. -/
theorem claim_C5_amended_witness :
    ((([srcCyc].map PNode.nid).Nodup)) ∧
    ((∀ node ∈ [srcCyc], ∃ pre post, [srcCyc] = pre ++ node :: post ∧
      alGet (· == ·) (visitPass ([] : List (NodeId × List PNode)) [srcCyc])
          node.nid =
        some (visitDepth
          ((alGet (· == ·) ([] : List (NodeId × List PNode)) node.nid).getD [])
          (visitPass ([] : List (NodeId × List PNode)) pre) node)) ∧
    (∀ node ∈ [srcCyc],
      (alGet (· == ·) ([] : List (NodeId × List PNode)) node.nid).getD [] =
        [] →
      alGet (· == ·) (visitPass ([] : List (NodeId × List PNode)) [srcCyc])
        node.nid = some (-1)) ∧
    (∀ node ∈ [srcCyc],
      (∃ p ∈ (alGet (· == ·) ([] : List (NodeId × List PNode))
          node.nid).getD [],
        p.package.name ≠ node.package.name) →
      ∃ v, alGet (· == ·) (visitPass ([] : List (NodeId × List PNode))
          [srcCyc]) node.nid = some v ∧ 0 ≤ v) ∧
    (∀ nid v, alGet (· == ·) (visitPass ([] : List (NodeId × List PNode))
        [srcCyc]) nid = some v →
      -1 ≤ v ∧ v ≤ (([srcCyc] : List PNode).length : Int) - 1)) :=
  ⟨by decide, claim_C5_amended ([] : List (NodeId × List PNode)) [srcCyc]
    (by decide)⟩

end Solver
